import Mathlib

/-!
Verification development for the nexadb native vector-search core
(`src/nexadb/native/vector_ops.cpp`, `src/nexadb/native/hnsw_index.cpp`).

Shallow embedding conventions:
* `float` values are modelled as exact rationals (`ℚ`).  Over ℚ the SIMD
  lane-split accumulation of `l2_distance_simd` is equal to the plain
  left-to-right sum, so the kernel is embedded as a single summation.
* `std::vector<float>` buffers become `List ℚ`; `size_t` becomes `ℕ`.
* `std::partial_sort` / `std::sort` are called with a comparator that only
  compares distances, so the relative order of equal-distance entries is not
  pinned down by the C++ standard.  The embedding refines them to the stable
  outcome (equal keys keep their input order), which is the deterministic
  tie-break the specification designates (smaller ID first, since candidate
  lists are built in ascending-ID order).
* `std::priority_queue` over `SearchCandidate` (ordered by distance only) is
  embedded as a list kept sorted by ascending distance; `push` inserts after
  existing equal-distance entries (a deterministic refinement of the heap),
  the min-element is the head and the max-element is the last element.
* The composition `mt19937(42)` → `uniform_real_distribution` →
  `-log(r) * ml_` of `get_random_level` involves transcendental floating
  point; it is modelled as a deterministic stream `levels : ℕ → ℕ` of
  non-negative sampled levels consumed at position `rngPos`.  The
  constructor seeds the stream position to zero; crucially, `clear()` in
  the source does not touch the generator, which the embedding mirrors by
  leaving `rngPos` unchanged.
* C++ exceptions (`std::invalid_argument`) become `Except Unit`; a routine
  that throws before mutating leaves the state unchanged.
-/

/-- Vector of rationals standing for a `std::vector<float>`. -/
abbrev Vec := List ℚ

/-- Squared L2 distance `Σ (a[i] - b[i])^2` (`l2_distance_simd`): over exact
rationals the NEON/AVX2 lane splitting and the scalar tail sum to the same
value, so the kernel is one summation over the zipped inputs. -/
def l2sq (a b : Vec) : ℚ := ((a.zip b).map (fun p => (p.1 - p.2) ^ 2)).sum

/-- Insert `x` into a list sorted by ascending `key`, after any entries with
an equal key.  This is the stable deterministic refinement used for every
distance-comparator sort / priority-queue push in the source. -/
def insertByKey {α : Type} (key : α → ℚ) (x : α) : List α → List α
  | [] => [x]
  | y :: ys => if key x < key y then x :: y :: ys else y :: insertByKey key x ys

/-- Stable insertion sort by ascending `key`: the deterministic refinement of
`std::sort` / `std::partial_sort` with the distance-only comparator. -/
def sortByKey {α : Type} (key : α → ℚ) (l : List α) : List α :=
  l.foldl (fun acc x => insertByKey key x acc) []

namespace VectorBatchInserter

/-- State of `VectorBatchInserter`: dimensionality, vector count, and the
flat row-major arena `data_`. -/
structure BState where
  dim : ℕ
  num : ℕ
  data : List ℚ
deriving DecidableEq

/-- Constructor `VectorBatchInserter(dimensions)`. -/
def bfNew (dim : ℕ) : BState := ⟨dim, 0, []⟩

/-- Row `i` of the arena: positions `[i*dim, (i+1)*dim)`. -/
def row (s : BState) (i : ℕ) : Vec := (s.data.drop (i * s.dim)).take s.dim

/-- Method `add`: dimension check, then append the vector to the arena. -/
def add (s : BState) (v : Vec) : Except Unit BState :=
  if v.length ≠ s.dim then .error ()
  else .ok ⟨s.dim, s.num + 1, s.data ++ v⟩

/-- Method `add_batch`: validate every vector first; only if all match are
they appended in order (the boolean reports whether an exception was
thrown). -/
def add_batch (s : BState) (vs : List Vec) : BState × Bool :=
  if vs.any (fun v => v.length ≠ s.dim) then (s, true)
  else (⟨s.dim, s.num + vs.length, s.data ++ vs.flatten⟩, false)

/-- Method `search`: dimension check, empty short-circuit, clamp `k`,
distances to all rows in ID order, partial sort by distance, top `k`. -/
def search (s : BState) (q : Vec) (k : ℕ) : Except Unit (List (ℕ × ℚ)) :=
  if q.length ≠ s.dim then .error ()
  else if s.num = 0 then .ok []
  else
    let k' := min k s.num
    let dists := (List.range s.num).map (fun i => (i, l2sq q (row s i)))
    .ok ((sortByKey Prod.snd dists).take k')

/-- Method `clear`. -/
def clear (s : BState) : BState := ⟨s.dim, 0, []⟩

/-- Public calls on a `VectorBatchInserter`, for reachability statements. -/
inductive BOp where
  | add (v : Vec)
  | addBatch (vs : List Vec)
  | search (q : Vec) (k : ℕ)
  | clear

/-- Effect of one public call on the state (a thrown exception leaves the
state unchanged; `search` never mutates). -/
def runOp (s : BState) : BOp → BState
  | .add v => match add s v with | .ok t => t | .error _ => s
  | .addBatch vs => (add_batch s vs).1
  | .search _ _ => s
  | .clear => clear s

/-- Effect of a sequence of public calls. -/
def runOps (s : BState) (ops : List BOp) : BState := ops.foldl runOp s

end VectorBatchInserter

namespace HNSWIndex

/-- `HNSWNode`: id plus per-layer neighbour lists. -/
structure HNode where
  id : ℕ
  neighbors : List (List ℕ)
deriving DecidableEq

/-- `SearchCandidate`. -/
structure Cand where
  id : ℕ
  dist : ℚ
deriving DecidableEq

/-- Immutable configuration fields of `HNSWIndex`. -/
structure HCfg where
  dim : ℕ
  maxElements : ℕ
  M : ℕ
  Mmax : ℕ
  efC : ℕ
deriving DecidableEq

/-- Mutable graph fields of `HNSWIndex`: arena, nodes, count, entry point,
top layer. -/
structure HGraph where
  data : List ℚ
  nodes : List HNode
  num : ℕ
  entry : ℕ
  maxLayer : ℕ
deriving DecidableEq

/-- Whole `HNSWIndex` state: configuration, graph, `ef_search_`, and the
random-level stream with its current position (see the header comment). -/
structure HState where
  cfg : HCfg
  g : HGraph
  efSearch : ℕ
  levels : ℕ → ℕ
  rngPos : ℕ

/-- Default node used to totalise out-of-range accesses. -/
def noNode : HNode := ⟨0, []⟩

/-- Number of layers allocated for node `u` (`nodes_[u].neighbors.size()`). -/
def layersOf (g : HGraph) (u : ℕ) : ℕ := ((g.nodes.getD u noNode).neighbors).length

/-- Neighbour list of node `u` at layer `L` (`nodes_[u].neighbors[L]`). -/
def nbrsAt (g : HGraph) (u L : ℕ) : List ℕ := ((g.nodes.getD u noNode).neighbors).getD L []

/-- Row `i` of the HNSW arena. -/
def rowG (cfg : HCfg) (g : HGraph) (i : ℕ) : Vec := (g.data.drop (i * cfg.dim)).take cfg.dim

/-- `distance_to_query(query, id)`. -/
def dQ (cfg : HCfg) (g : HGraph) (q : Vec) (i : ℕ) : ℚ := l2sq q (rowG cfg g i)

/-- `distance(id1, id2)`. -/
def dII (cfg : HCfg) (g : HGraph) (i j : ℕ) : ℚ := l2sq (rowG cfg g i) (rowG cfg g j)

/-- Priority-queue push ordered by distance (see header). -/
def cPush (x : Cand) (l : List Cand) : List Cand := insertByKey Cand.dist x l

/-- `W.top()` of the max-heap: the last (farthest) element of the ascending
list; the default is never consulted because `W` stays non-empty. -/
def wTop (W : List Cand) : Cand := W.getLastD ⟨0, 0⟩

/-- Body of the neighbour `for` loop of `search_layer`: skip visited ids,
otherwise mark visited, compute the distance and conditionally push to both
queues, truncating `W` to `ef` entries. -/
def scanStep (cfg : HCfg) (g : HGraph) (q : Vec) (ef : ℕ)
    (acc : List Cand × List Cand × List ℕ) (n : ℕ) : List Cand × List Cand × List ℕ :=
  let C := acc.1
  let W := acc.2.1
  let vis := acc.2.2
  if n ∈ vis then acc
  else
    let vis' := n :: vis
    let d := dQ cfg g q n
    if d < (wTop W).dist ∨ W.length < ef then
      let C' := cPush ⟨n, d⟩ C
      let W' := cPush ⟨n, d⟩ W
      (C', if ef < W'.length then W'.dropLast else W', vis')
    else (C, W, vis')

/-- Main `while` loop of `search_layer`, with explicit fuel (the fuel chosen
by `search_layer` provably dominates the loop's decreasing measure, so the
zero-fuel branch is never taken there). -/
def slLoop (cfg : HCfg) (g : HGraph) (q : Vec) (ef layer : ℕ) :
    ℕ → List Cand → List Cand → List ℕ → List Cand
  | 0, _, W, _ => W
  | _ + 1, [], W, _ => W
  | f + 1, c :: C, W, vis =>
      if (wTop W).dist < c.dist then W
      else
        let a := (nbrsAt g c.id layer).foldl (scanStep cfg g q ef) (C, W, vis)
        slLoop cfg g q ef layer f a.1 a.2.1 a.2.2

/-- Total length of all neighbour lists, used to bound the loop fuel. -/
def nbrTotal (g : HGraph) : ℕ := (g.nodes.map (fun nd => (nd.neighbors.map List.length).sum)).sum

/-- `search_layer(query, entry_id, ef, layer)`: seed both queues and the
visited set with the entry point, run the loop; the ascending result list is
returned directly (the source pops the max-heap and reverses). -/
def search_layer (cfg : HCfg) (g : HGraph) (q : Vec) (entryId ef layer : ℕ) : List Cand :=
  let d := dQ cfg g q entryId
  slLoop cfg g q ef layer (2 * nbrTotal g + 4) [⟨entryId, d⟩] [⟨entryId, d⟩] [entryId]

/-- Replace the element at index `i` (no-op when out of range), mirroring an
in-place update of `nodes_[i]` / `neighbors[L]`. -/
def modifyAt {α : Type} (f : α → α) : ℕ → List α → List α
  | _, [] => []
  | 0, x :: xs => f x :: xs
  | i + 1, x :: xs => x :: modifyAt f i xs

/-- Update node `u` in place. -/
def updNode (g : HGraph) (u : ℕ) (f : HNode → HNode) : HGraph :=
  { g with nodes := modifyAt f u g.nodes }

/-- `nodes_[u].neighbors[L].push_back(v)`. -/
def pushNbr (g : HGraph) (u L v : ℕ) : HGraph :=
  updNode g u (fun nd => { nd with neighbors := modifyAt (fun l => l ++ [v]) L nd.neighbors })

/-- `nodes_[u].neighbors[L] = new`. -/
def setNbrs (g : HGraph) (u L : ℕ) (new : List ℕ) : HGraph :=
  updNode g u (fun nd => { nd with neighbors := modifyAt (fun _ => new) L nd.neighbors })

/-- `prune_connections(node_id, layer, M)`: if over capacity, keep the `M`
neighbours nearest to the node (stable sort by distance). -/
def prune_connections (cfg : HCfg) (g : HGraph) (nodeId layer M : ℕ) : HGraph :=
  let nbrs := nbrsAt g nodeId layer
  if nbrs.length ≤ M then g
  else
    let cands := nbrs.map (fun nb => Cand.mk nb (dII cfg g nodeId nb))
    let sorted := sortByKey Cand.dist cands
    setNbrs g nodeId layer ((sorted.take M).map Cand.id)

/-- One iteration of the bidirectional-link loop of `add`: link `new_id` and
the chosen neighbour both ways at layer `lc`, then prune the neighbour if it
went over capacity. -/
def connectOne (cfg : HCfg) (newId lc Mlc : ℕ) (g : HGraph) (nb : Cand) : HGraph :=
  let g1 := pushNbr g newId lc nb.id
  let g2 := pushNbr g1 nb.id lc newId
  if Mlc < (nbrsAt g2 nb.id lc).length then prune_connections cfg g2 nb.id lc Mlc else g2

/-- Per-layer body of the insertion loop of `add`: beam-search the layer,
take the `M_lc` nearest as neighbours, link them, and move `curr_nearest` to
the closest chosen neighbour. -/
def connectLayer (cfg : HCfg) (q : Vec) (newId lc : ℕ) (st : HGraph × ℕ) : HGraph × ℕ :=
  let g := st.1
  let curr := st.2
  let cands := search_layer cfg g q curr cfg.efC lc
  let Mlc := if lc = 0 then cfg.Mmax else cfg.M
  let nbrs := cands.take Mlc
  let g' := nbrs.foldl (connectOne cfg newId lc Mlc) g
  (g', match nbrs with | [] => curr | nb :: _ => nb.id)

/-- Layer list `[hi, hi-1, ...]` with `count` entries, for the descending
`for` loops of `add` and `search`. -/
def downList : ℕ → ℕ → List ℕ
  | _, 0 => []
  | hi, c + 1 => hi :: downList (hi - 1) c

/-- Pure navigation descent: at each layer run `search_layer` with `ef = 1`
and move to its closest result (the source guards against an empty result). -/
def descend (cfg : HCfg) (g : HGraph) (q : Vec) (curr : ℕ) (layers : List ℕ) : ℕ :=
  layers.foldl
    (fun cur lc =>
      match search_layer cfg g q cur 1 lc with
      | [] => cur
      | c :: _ => c.id) curr

/-- Graph part of `add` once the dimension check passed and the level has
been sampled: append data and a node sized `max(new_level, max_layer_)+1`,
handle the first node specially, otherwise descend, connect layer by layer,
and finally promote the entry point when the new level is a record. -/
def add_core (cfg : HCfg) (g : HGraph) (newLevel : ℕ) (v : Vec) : HGraph :=
  let newId := g.num
  let g1 : HGraph :=
    { g with data := g.data ++ v,
             nodes := g.nodes ++ [⟨newId, List.replicate (max newLevel g.maxLayer + 1) []⟩] }
  if g.num = 0 then
    { g1 with entry := newId, maxLayer := newLevel, num := 1 }
  else
    let curr := descend cfg g1 v g1.entry (downList g1.maxLayer (g1.maxLayer - newLevel))
    let st := (downList (min newLevel g1.maxLayer) (min newLevel g1.maxLayer + 1)).foldl
      (fun st lc => connectLayer cfg v newId lc st) (g1, curr)
    let g3 := if g1.maxLayer < newLevel then { st.1 with entry := newId, maxLayer := newLevel } else st.1
    { g3 with num := g3.num + 1 }

/-- Method `add`: dimension check, sample a level from the stream, run the
graph update. -/
def add (s : HState) (v : Vec) : Except Unit HState :=
  if v.length ≠ s.cfg.dim then .error ()
  else .ok { s with g := add_core s.cfg s.g (s.levels s.rngPos) v, rngPos := s.rngPos + 1 }

/-- Method `add_batch`: plain loop over `add`; the first mismatch aborts the
loop by exception, keeping the vectors inserted so far. -/
def add_batch (s : HState) : List Vec → HState × Bool
  | [] => (s, false)
  | v :: vs =>
      match add s v with
      | .error _ => (s, true)
      | .ok s' => add_batch s' vs

/-- Method `search`: dimension check, empty short-circuit, clamp `k`,
descend to layer 1, beam-search layer 0 with width `max(ef_search_, k)`,
return the first `k` candidates as pairs. -/
def search (s : HState) (q : Vec) (k : ℕ) : Except Unit (List (ℕ × ℚ)) :=
  if q.length ≠ s.cfg.dim then .error ()
  else if s.g.num = 0 then .ok []
  else
    let k' := min k s.g.num
    let curr := descend s.cfg s.g q s.g.entry (downList s.g.maxLayer s.g.maxLayer)
    let cands := search_layer s.cfg s.g q curr (max s.efSearch k') 0
    .ok ((cands.take k').map (fun c => (c.id, c.dist)))

/-- Method `set_ef`: stores the argument with no validation. -/
def set_ef (s : HState) (ef : ℕ) : HState := { s with efSearch := ef }

/-- Method `clear`: resets the graph fields only; the configuration,
`ef_search_` and - notably - the random generator are left as they are. -/
def clear (s : HState) : HState := { s with g := ⟨[], [], 0, 0, 0⟩ }

/-- Constructor `HNSWIndex(dim, max_elements, M, ef_construction)` with the
level stream standing for the freshly seeded generator. -/
def hnswNew (dim maxEl M efc : ℕ) (levels : ℕ → ℕ) : HState :=
  { cfg := ⟨dim, maxEl, M, M * 2, efc⟩, g := ⟨[], [], 0, 0, 0⟩,
    efSearch := 100, levels := levels, rngPos := 0 }

/-- Public calls on an `HNSWIndex`. -/
inductive HOp where
  | add (v : Vec)
  | addBatch (vs : List Vec)
  | search (q : Vec) (k : ℕ)
  | setEf (e : ℕ)
  | clear

/-- Effect of one public call (exceptions leave the state as the call left
it; `search` never mutates). -/
def runOp (s : HState) : HOp → HState
  | .add v => match add s v with | .ok t => t | .error _ => s
  | .addBatch vs => (add_batch s vs).1
  | .search _ _ => s
  | .setEf e => set_ef s e
  | .clear => clear s

/-- Effect of a sequence of public calls. -/
def runOps (s : HState) (ops : List HOp) : HState := ops.foldl runOp s

end HNSWIndex

/-- Strict lexicographic order on (id, distance) pairs: strictly smaller
distance, or equal distance and strictly smaller ID.  This is the order in
which the brute-force `search` is claimed to return its results. -/
def lexLT (a b : ℕ × ℚ) : Prop := a.2 < b.2 ∨ (a.2 = b.2 ∧ a.1 < b.1)

namespace HNSWIndex

/-- All ids that appear in some node's neighbour list at layer `L`. -/
def layerIds (g : HGraph) (L : ℕ) : List ℕ :=
  (g.nodes.map (fun nd => nd.neighbors.getD L [])).flatten

/-- Invariant tying the result heap `W` and the visited list through the
`search_layer` loop: `W` is sorted by ascending distance, every entry holds
the true distance of its id to the query, ids are distinct, visited, and
either the entry point or present at the searched layer, and `W` is
non-empty with at most `max ef 1` entries. -/
structure SLI (cfg : HCfg) (g : HGraph) (q : Vec) (ef layer e0 : ℕ)
    (W : List Cand) (vis : List ℕ) : Prop where
  sorted : W.Pairwise (fun a b => a.dist ≤ b.dist)
  dists : ∀ c ∈ W, c.dist = dQ cfg g q c.id
  inVis : ∀ c ∈ W, c.id ∈ vis
  nodup : (W.map Cand.id).Nodup
  nonnil : W ≠ []
  lenLe : W.length ≤ max ef 1
  origin : ∀ c ∈ W, c.id = e0 ∨ c.id ∈ layerIds g layer

/-- Two graphs with the same arena, counters and per-node layer counts:
what every neighbour-list edit of the insertion loop preserves. -/
def SameShape (g g' : HGraph) : Prop :=
  g'.num = g.num ∧ g'.data = g.data ∧ g'.entry = g.entry ∧ g'.maxLayer = g.maxLayer ∧
  g'.nodes.length = g.nodes.length ∧ ∀ u, layersOf g' u = layersOf g u

/-- Folding plain `add` calls over a vector sequence (the insertion sequence
of the clear-and-rebuild claim). -/
def addSeq (s : HState) (vs : List Vec) : HState :=
  vs.foldl (fun st v => runOp st (.add v)) s

/-- Level stream that always samples 0 (the overwhelmingly common draw). -/
def cxLevels0 : ℕ → ℕ := fun _ => 0

/-- Level stream whose n-th draw is n, to separate consecutive draws. -/
def cxLevelsId : ℕ → ℕ := fun n => n

/-- Fresh 1-dimensional HNSW index with `M = 1` (so `M_max0 = 2`). -/
def cxNew : HState := hnswNew 1 10 1 200 cxLevels0

/-- Fresh 1-dimensional HNSW index whose level stream is `cxLevelsId`. -/
def cxNew2 : HState := hnswNew 1 10 1 2 cxLevelsId

/-- Concrete index for the layer-0 disconnection scenario: inserting
0, 10, 1000, 4 (with `M = 1`) prunes away every in-edge of node 2, making
it unreachable from the entry point. -/
def cxState : HState :=
  runOps cxNew [.add [0], .add [10], .add [1000], .add [4]]

/-- Every id stored in any node's neighbour list at any layer, as a finite
set: the pool from which `search_layer` can ever draw a new candidate. -/
def allNbrIds (g : HGraph) : Finset ℕ :=
  ((g.nodes.map (fun nd => nd.neighbors.flatten)).flatten).toFinset

/-- Decreasing measure of the `search_layer` loop: the frontier size plus
twice the number of listed ids not yet visited.  Each iteration pops one
frontier candidate and any push is paid for by a fresh visit, so the
measure drops by at least one per iteration. -/
def slMeasure (g : HGraph) (C : List Cand) (vis : List ℕ) : ℕ :=
  C.length + 2 * (allNbrIds g \ vis.toFinset).card

/-- Structural invariant of every reachable HNSW graph: node count matches
`len()`, every neighbour id is a valid node whose layer vector covers the
edge's layer, every list respects the degree caps, and the entry point (on
a non-empty graph) is a valid node reaching up to `max_layer`. -/
structure GInv (cfg : HCfg) (g : HGraph) : Prop where
  nlen : g.nodes.length = g.num
  edge : ∀ x L u, u ∈ nbrsAt g x L → u < g.num ∧ L + 1 ≤ layersOf g u
  deg : ∀ x L, (nbrsAt g x L).length ≤ (if L = 0 then cfg.Mmax else cfg.M)
  ent : 0 < g.num → g.entry < g.num ∧ g.maxLayer + 1 ≤ layersOf g g.entry

/-- Invariant holding when the insertion loop of `add` is about to process
layer `lc` for the new node `newId` (allocated with `nlay` layers): the
graph has the appended node, edges and degrees are sound with ids bounded
by `newId`, the new node has no edges at layer `lc` or below (and nobody
points to it there), and the navigation node `curr` is an old node present
at layer `lc`. -/
structure LayerPre (cfg : HCfg) (newId nlay lc : ℕ) (g : HGraph) (curr : ℕ) : Prop where
  nlen : g.nodes.length = newId + 1
  edge : ∀ x L u, u ∈ nbrsAt g x L → u ≤ newId ∧ L + 1 ≤ layersOf g u
  deg : ∀ x L, (nbrsAt g x L).length ≤ (if L = 0 then cfg.Mmax else cfg.M)
  absent : ∀ L, L ≤ lc → newId ∉ layerIds g L
  newSelf : ∀ L, L ≤ lc → nbrsAt g newId L = []
  newLay : layersOf g newId = nlay
  hlc : lc + 1 ≤ nlay
  hcur : curr < newId
  hcurLay : lc + 1 ≤ layersOf g curr

end HNSWIndex

-- ===================================================================
-- Theorems.  Everything below is proof; no further definitions except
-- those introduced right before the claim that needs them.
-- ===================================================================

attribute [local semireducible] Rat.add Rat.sub Rat.mul

theorem insertByKey_perm {α : Type} (key : α → ℚ) (x : α) (l : List α) :
    (insertByKey key x l).Perm (x :: l) := by
  induction l with
  | nil => exact List.Perm.refl _
  | cons y ys ih =>
      by_cases h : key x < key y
      · simp [insertByKey, h]
      · simp only [insertByKey, if_neg h]
        exact (ih.cons y).trans (List.Perm.swap x y ys)

theorem mem_insertByKey {α : Type} {key : α → ℚ} {x z : α} {l : List α} :
    z ∈ insertByKey key x l ↔ z = x ∨ z ∈ l := by
  rw [(insertByKey_perm key x l).mem_iff, List.mem_cons]

theorem length_insertByKey {α : Type} (key : α → ℚ) (x : α) (l : List α) :
    (insertByKey key x l).length = l.length + 1 :=
  (insertByKey_perm key x l).length_eq

theorem sorted_insertByKey {α : Type} {key : α → ℚ} {x : α} {l : List α}
    (h : l.Pairwise (fun a b => key a ≤ key b)) :
    (insertByKey key x l).Pairwise (fun a b => key a ≤ key b) := by
  induction l with
  | nil => simp [insertByKey]
  | cons y ys ih =>
      rcases List.pairwise_cons.mp h with ⟨hy, hys⟩
      by_cases hxy : key x < key y
      · rw [insertByKey, if_pos hxy]
        refine List.pairwise_cons.mpr ⟨?_, h⟩
        intro z hz
        rcases List.mem_cons.mp hz with rfl | hz
        · exact le_of_lt hxy
        · exact le_trans (le_of_lt hxy) (hy z hz)
      · rw [insertByKey, if_neg hxy]
        refine List.pairwise_cons.mpr ⟨?_, ih hys⟩
        intro z hz
        rcases mem_insertByKey.mp hz with rfl | hz
        · exact le_of_not_lt hxy
        · exact hy z hz

theorem sortByKey_perm {α : Type} (key : α → ℚ) (l : List α) :
    (sortByKey key l).Perm l := by
  suffices h : ∀ acc : List α, (l.foldl (fun acc x => insertByKey key x acc) acc).Perm (l ++ acc) by
    simpa using h []
  induction l with
  | nil => intro acc; simp
  | cons x xs ih =>
      intro acc
      have h1 := ih (insertByKey key x acc)
      have h2 : (xs ++ insertByKey key x acc).Perm (xs ++ x :: acc) :=
        List.Perm.append_left xs (insertByKey_perm key x acc)
      have h3 : (xs ++ x :: acc).Perm (x :: (xs ++ acc)) := List.perm_middle
      simpa using h1.trans (h2.trans h3)

theorem sorted_sortByKey {α : Type} (key : α → ℚ) (l : List α) :
    (sortByKey key l).Pairwise (fun a b => key a ≤ key b) := by
  suffices h : ∀ acc : List α, acc.Pairwise (fun a b => key a ≤ key b) →
      (l.foldl (fun acc x => insertByKey key x acc) acc).Pairwise (fun a b => key a ≤ key b) by
    exact h [] (by simp)
  induction l with
  | nil => intro acc hacc; simpa using hacc
  | cons x xs ih => intro acc hacc; exact ih _ (sorted_insertByKey hacc)

theorem lex_insertByKey {x : ℕ × ℚ} {l : List (ℕ × ℚ)}
    (h : l.Pairwise lexLT) (hx : ∀ a ∈ l, a.1 < x.1) :
    (insertByKey Prod.snd x l).Pairwise lexLT := by
  induction l with
  | nil => simp [insertByKey]
  | cons y ys ih =>
      rcases List.pairwise_cons.mp h with ⟨hy, hys⟩
      by_cases hxy : x.2 < y.2
      · rw [insertByKey]
        simp only [if_pos hxy]
        refine List.pairwise_cons.mpr ⟨?_, h⟩
        intro z hz
        rcases List.mem_cons.mp hz with rfl | hz
        · exact Or.inl hxy
        · rcases hy z hz with h1 | ⟨h1, _⟩
          · exact Or.inl (lt_trans hxy h1)
          · exact Or.inl (h1 ▸ hxy)
      · rw [insertByKey]
        simp only [if_neg hxy]
        refine List.pairwise_cons.mpr ⟨?_, ih hys (fun a ha => hx a (List.mem_cons_of_mem y ha))⟩
        intro z hz
        rcases mem_insertByKey.mp hz with rfl | hz
        · rcases lt_or_eq_of_le (le_of_not_lt hxy) with h1 | h1
          · exact Or.inl h1
          · exact Or.inr ⟨h1, hx y (List.mem_cons_self y ys)⟩
        · exact hy z hz

theorem lex_sortByKey (l : List (ℕ × ℚ)) (h : l.Pairwise (fun a b => a.1 < b.1)) :
    (sortByKey Prod.snd l).Pairwise lexLT := by
  suffices hs : ∀ acc : List (ℕ × ℚ), acc.Pairwise lexLT →
      (∀ a ∈ acc, ∀ b ∈ l, a.1 < b.1) →
      (l.foldl (fun acc x => insertByKey Prod.snd x acc) acc).Pairwise lexLT by
    exact hs [] (by simp) (by simp)
  induction l with
  | nil => intro acc hacc _; simpa using hacc
  | cons x xs ih =>
      intro acc hacc hcross
      rcases List.pairwise_cons.mp h with ⟨hxxs, hxs⟩
      refine ih hxs _ (lex_insertByKey hacc fun a ha => hcross a ha x (List.mem_cons_self x xs)) ?_
      intro a ha b hb
      rcases mem_insertByKey.mp ha with rfl | ha
      · exact hxxs b hb
      · exact hcross a ha b (List.mem_cons_of_mem x hb)

/-- C1: for every stored dataset and every query of length `dim` with
`k ≥ 1`, the brute-force `search(query, k)` returns the `min(k, len())`
IDs whose squared-L2 distances to the query are smallest, paired with those
distances, in ascending distance order, ties broken by ascending ID. -/
theorem C1_bruteforce_search_exact (s : VectorBatchInserter.BState) (q : Vec) (k : ℕ)
    (hq : q.length = s.dim) (hk : 1 ≤ k) :
    ∃ r, VectorBatchInserter.search s q k = .ok r ∧
      r.length = min k s.num ∧
      (∀ p ∈ r, p.1 < s.num ∧ p.2 = l2sq q (VectorBatchInserter.row s p.1)) ∧
      r.Pairwise lexLT ∧
      (∀ p ∈ r, ∀ j, j < s.num → j ∉ r.map Prod.fst →
        p.2 < l2sq q (VectorBatchInserter.row s j) ∨
          (p.2 = l2sq q (VectorBatchInserter.row s j) ∧ p.1 < j)) := by
  unfold VectorBatchInserter.search
  rw [if_neg (by simp [hq])]
  by_cases h0 : s.num = 0
  · refine ⟨[], by rw [if_pos h0], by simp [h0], by simp, by simp, by simp⟩
  · rw [if_neg h0]
    set dists := (List.range s.num).map (fun i => (i, l2sq q (VectorBatchInserter.row s i))) with hd
    set S := sortByKey Prod.snd dists with hS
    have hperm : S.Perm dists := sortByKey_perm _ _
    have hlen : S.length = s.num := by
      rw [hperm.length_eq, hd, List.length_map, List.length_range]
    have hmemS : ∀ p ∈ S, p.1 < s.num ∧ p.2 = l2sq q (VectorBatchInserter.row s p.1) := by
      intro p hp
      have := hperm.mem_iff.mp hp
      rw [hd, List.mem_map] at this
      rcases this with ⟨i, hi, rfl⟩
      exact ⟨List.mem_range.mp hi, rfl⟩
    have hlex : S.Pairwise lexLT := by
      refine lex_sortByKey _ ?_
      rw [hd]
      exact (List.pairwise_lt_range s.num).map _ (fun a b h => by simpa using h)
    refine ⟨S.take (min k s.num), rfl, ?_, ?_, ?_, ?_⟩
    · rw [List.length_take, hlen]
      omega
    · exact fun p hp => hmemS p ((List.take_sublist _ _).subset hp)
    · exact hlex.sublist (List.take_sublist _ _)
    · intro p hp j hj hjn
      have hjd : (j, l2sq q (VectorBatchInserter.row s j)) ∈ S := by
        refine hperm.mem_iff.mpr ?_
        rw [hd, List.mem_map]
        exact ⟨j, List.mem_range.mpr hj, rfl⟩
      have hsplit : S.take (min k s.num) ++ S.drop (min k s.num) = S := List.take_append_drop _ _
      have hdrop : (j, l2sq q (VectorBatchInserter.row s j)) ∈ S.drop (min k s.num) := by
        rw [← hsplit] at hjd
        rcases List.mem_append.mp hjd with h | h
        · exact absurd (List.mem_map.mpr ⟨_, h, rfl⟩) hjn
        · exact h
      have hcross := (List.pairwise_append.mp (hsplit ▸ hlex)).2.2
      exact hcross p hp _ hdrop

namespace HNSWIndex

theorem nbrsAt_sub_layerIds (g : HGraph) (u L : ℕ) :
    ∀ n ∈ nbrsAt g u L, n ∈ layerIds g L := by
  intro n hn
  unfold nbrsAt at hn
  unfold layerIds
  rcases lt_or_ge u g.nodes.length with h | h
  · rw [List.getD_eq_getElem _ _ h] at hn
    exact List.mem_flatten.mpr
      ⟨_, List.mem_map.mpr ⟨_, List.getElem_mem h, rfl⟩, hn⟩
  · rw [List.getD_eq_default _ _ h] at hn
    simp [noNode] at hn

theorem wTop_max {W : List Cand} (hs : W.Pairwise (fun a b => a.dist ≤ b.dist)) :
    ∀ c ∈ W, c.dist ≤ (wTop W).dist := by
  induction W with
  | nil => simp
  | cons x xs ih =>
      rcases List.pairwise_cons.mp hs with ⟨hx, hxs⟩
      intro c hc
      cases xs with
      | nil =>
          rcases List.mem_singleton.mp hc with rfl
          simp [wTop]
      | cons y ys =>
          have ht : wTop (x :: y :: ys) = wTop (y :: ys) := by simp [wTop]
          rcases List.mem_cons.mp hc with rfl | hc
          · rw [ht]
            exact le_trans (hx y (List.mem_cons_self y ys))
              (ih hxs y (List.mem_cons_self y ys))
          · rw [ht]
            exact ih hxs c hc

theorem scanStep_SLI {cfg : HCfg} {g : HGraph} {q : Vec} {ef layer e0 : ℕ}
    {C W : List Cand} {vis : List ℕ} {n : ℕ}
    (h : SLI cfg g q ef layer e0 W vis) (hn : n ∈ layerIds g layer) :
    SLI cfg g q ef layer e0 (scanStep cfg g q ef (C, W, vis) n).2.1
      (scanStep cfg g q ef (C, W, vis) n).2.2 := by
  unfold scanStep
  by_cases hv : n ∈ vis
  · simpa [hv] using h
  · simp only [if_neg hv]
    by_cases hp : dQ cfg g q n < (wTop W).dist ∨ W.length < ef
    · simp only [if_pos hp]
      set x : Cand := ⟨n, dQ cfg g q n⟩ with hx
      have hperm : (cPush x W).Perm (x :: W) := insertByKey_perm _ _ _
      have hWlen : (cPush x W).length = W.length + 1 := length_insertByKey _ _ _
      have hsort : (cPush x W).Pairwise (fun a b => a.dist ≤ b.dist) :=
        sorted_insertByKey h.sorted
      have hmem : ∀ c ∈ cPush x W, c = x ∨ c ∈ W := fun c hc => mem_insertByKey.mp hc
      have hnodup : ((cPush x W).map Cand.id).Nodup := by
        refine (hperm.map Cand.id).nodup_iff.mpr ?_
        refine List.nodup_cons.mpr ⟨?_, h.nodup⟩
        intro hmm
        rcases List.mem_map.mp hmm with ⟨c, hc, hcid⟩
        have h2 : x.id ∈ vis := hcid ▸ h.inVis c hc
        exact hv h2
      by_cases hcap : ef < (cPush x W).length
      · simp only [if_pos hcap]
        have hsub : (cPush x W).dropLast.Sublist (cPush x W) := List.dropLast_sublist _
        have hlen2 : 2 ≤ (cPush x W).length := by
          rw [hWlen]
          have := List.length_pos.mpr h.nonnil
          omega
        refine ⟨hsort.sublist hsub, ?_, ?_, ?_, ?_, ?_, ?_⟩
        · intro c hc
          rcases hmem c (hsub.subset hc) with rfl | hc'
          · rfl
          · exact h.dists c hc'
        · intro c hc
          rcases hmem c (hsub.subset hc) with rfl | hc'
          · exact List.mem_cons_self _ _
          · exact List.mem_cons_of_mem _ (h.inVis c hc')
        · exact hnodup.sublist (hsub.map Cand.id)
        · intro hnil
          have h3 := congrArg List.length hnil
          rw [List.length_dropLast, hWlen, List.length_nil] at h3
          have h4 := List.length_pos.mpr h.nonnil
          omega
        · rw [List.length_dropLast, hWlen]
          simpa using h.lenLe
        · intro c hc
          rcases hmem c (hsub.subset hc) with rfl | hc'
          · exact Or.inr hn
          · exact h.origin c hc'
      · simp only [if_neg hcap]
        refine ⟨hsort, ?_, ?_, hnodup, ?_, ?_, ?_⟩
        · intro c hc
          rcases hmem c hc with rfl | hc'
          · rfl
          · exact h.dists c hc'
        · intro c hc
          rcases hmem c hc with rfl | hc'
          · exact List.mem_cons_self _ _
          · exact List.mem_cons_of_mem _ (h.inVis c hc')
        · intro hnil
          have := congrArg List.length hnil
          rw [hWlen] at this
          simp at this
        · exact le_trans (le_of_not_lt hcap) (le_max_left _ _)
        · intro c hc
          rcases hmem c hc with rfl | hc'
          · exact Or.inr hn
          · exact h.origin c hc'
    · simp only [if_neg hp]
      refine ⟨h.sorted, h.dists, ?_, h.nodup, h.nonnil, h.lenLe, h.origin⟩
      exact fun c hc => List.mem_cons_of_mem _ (h.inVis c hc)

theorem scanFold_SLI {cfg : HCfg} {g : HGraph} {q : Vec} {ef layer e0 : ℕ} :
    ∀ (l : List ℕ) (C W : List Cand) (vis : List ℕ),
      (∀ n ∈ l, n ∈ layerIds g layer) →
      SLI cfg g q ef layer e0 W vis →
      SLI cfg g q ef layer e0 (l.foldl (scanStep cfg g q ef) (C, W, vis)).2.1
        (l.foldl (scanStep cfg g q ef) (C, W, vis)).2.2 := by
  intro l
  induction l with
  | nil => intro C W vis _ h; simpa using h
  | cons n ns ih =>
      intro C W vis hl h
      have h1 := scanStep_SLI (C := C) (n := n) h (hl n (List.mem_cons_self n ns))
      have heq : scanStep cfg g q ef (C, W, vis) n =
          ((scanStep cfg g q ef (C, W, vis) n).1,
           (scanStep cfg g q ef (C, W, vis) n).2.1,
           (scanStep cfg g q ef (C, W, vis) n).2.2) := rfl
      rw [List.foldl_cons, heq]
      exact ih _ _ _ (fun m hm => hl m (List.mem_cons_of_mem n hm)) h1

theorem slLoop_SLI {cfg : HCfg} {g : HGraph} {q : Vec} {ef layer e0 : ℕ} :
    ∀ (fuel : ℕ) (C W : List Cand) (vis : List ℕ),
      SLI cfg g q ef layer e0 W vis →
      ∃ vis', SLI cfg g q ef layer e0 (slLoop cfg g q ef layer fuel C W vis) vis' := by
  intro fuel
  induction fuel with
  | zero => intro C W vis h; exact ⟨vis, by simpa [slLoop] using h⟩
  | succ f ih =>
      intro C W vis h
      cases C with
      | nil => exact ⟨vis, by simpa [slLoop] using h⟩
      | cons c C' =>
          by_cases hb : (wTop W).dist < c.dist
          · exact ⟨vis, by simpa [slLoop, hb] using h⟩
          · rw [slLoop, if_neg hb]
            have h1 := scanFold_SLI (nbrsAt g c.id layer) C' W vis
              (nbrsAt_sub_layerIds g c.id layer) h
            exact ih _ _ _ h1

theorem search_layer_SLI (cfg : HCfg) (g : HGraph) (q : Vec) (e0 ef layer : ℕ) :
    ∃ vis', SLI cfg g q ef layer e0 (search_layer cfg g q e0 ef layer) vis' := by
  unfold search_layer
  refine slLoop_SLI _ _ _ _ ?_
  refine ⟨?_, ?_, ?_, ?_, ?_, ?_, ?_⟩
  · simp
  · intro c hc; rcases List.mem_singleton.mp hc with rfl; rfl
  · intro c hc; rcases List.mem_singleton.mp hc with rfl; simp
  · simp
  · simp
  · simp
  · intro c hc; rcases List.mem_singleton.mp hc with rfl; exact Or.inl rfl

end HNSWIndex

/-- C7: for every query, entry id present in the graph, `ef ≥ 1` and layer,
`search_layer` returns a plain list sorted by ascending distance with at
most `ef` entries, pairwise-distinct ids each paired with its true distance
to the query, and the loop breaks as soon as the closest frontier candidate
is farther than the worst retained result. -/
theorem C7_search_layer_contract (cfg : HNSWIndex.HCfg) (g : HNSWIndex.HGraph)
    (q : Vec) (e0 ef layer : ℕ) (hef : 1 ≤ ef) (he : e0 < g.nodes.length) :
    (HNSWIndex.search_layer cfg g q e0 ef layer).Pairwise (fun a b => a.dist ≤ b.dist) ∧
    (HNSWIndex.search_layer cfg g q e0 ef layer).length ≤ ef ∧
    ((HNSWIndex.search_layer cfg g q e0 ef layer).map HNSWIndex.Cand.id).Nodup ∧
    (∀ c ∈ HNSWIndex.search_layer cfg g q e0 ef layer,
      c.dist = HNSWIndex.dQ cfg g q c.id) ∧
    (∀ (f : ℕ) (c : HNSWIndex.Cand) (C W : List HNSWIndex.Cand) (vis : List ℕ),
      (HNSWIndex.wTop W).dist < c.dist →
      HNSWIndex.slLoop cfg g q ef layer (f + 1) (c :: C) W vis = W) := by
  obtain ⟨vis', h⟩ := HNSWIndex.search_layer_SLI cfg g q e0 ef layer
  refine ⟨h.sorted, ?_, h.nodup, h.dists, ?_⟩
  · have h1 := h.lenLe
    rwa [max_eq_left hef] at h1
  · intro f c C W vis hb
    rw [HNSWIndex.slLoop, if_pos hb]

namespace HNSWIndex

theorem length_modifyAt {α : Type} (f : α → α) : ∀ (i : ℕ) (l : List α),
    (modifyAt f i l).length = l.length := by
  intro i
  induction i with
  | zero => intro l; cases l <;> simp [modifyAt]
  | succ j ih => intro l; cases l <;> simp [modifyAt, ih]

theorem getD_modifyAt_ne {α : Type} (f : α → α) (d : α) :
    ∀ (i j : ℕ) (l : List α), i ≠ j →
      (modifyAt f i l).getD j d = l.getD j d := by
  intro i
  induction i with
  | zero =>
      intro j l hij
      cases l with
      | nil => simp [modifyAt]
      | cons x xs =>
          cases j with
          | zero => exact absurd rfl hij
          | succ j' => simp [modifyAt]
  | succ i' ih =>
      intro j l hij
      cases l with
      | nil => simp [modifyAt]
      | cons x xs =>
          cases j with
          | zero => simp [modifyAt]
          | succ j' =>
              simp only [modifyAt, List.getD_cons_succ]
              exact ih j' xs (fun h => hij (by rw [h]))

theorem getD_modifyAt_eq {α : Type} (f : α → α) (d : α) :
    ∀ (i : ℕ) (l : List α), i < l.length →
      (modifyAt f i l).getD i d = f (l.getD i d) := by
  intro i
  induction i with
  | zero =>
      intro l hl
      cases l with
      | nil => simp at hl
      | cons x xs => simp [modifyAt]
  | succ i' ih =>
      intro l hl
      cases l with
      | nil => simp at hl
      | cons x xs =>
          simp only [modifyAt, List.getD_cons_succ]
          exact ih xs (by simpa using hl)

theorem modifyAt_oob {α : Type} (f : α → α) :
    ∀ (i : ℕ) (l : List α), l.length ≤ i → modifyAt f i l = l := by
  intro i
  induction i with
  | zero =>
      intro l hl
      cases l with
      | nil => rfl
      | cons x xs => simp at hl
  | succ i' ih =>
      intro l hl
      cases l with
      | nil => rfl
      | cons x xs => simp [modifyAt, ih xs (by simpa using hl)]

theorem updNode_shape (g : HGraph) (u : ℕ) (f : HNode → HNode)
    (hf : ∀ nd, (f nd).neighbors.length = nd.neighbors.length) :
    SameShape g (updNode g u f) := by
  refine ⟨rfl, rfl, rfl, rfl, length_modifyAt f u g.nodes, ?_⟩
  intro x
  unfold layersOf updNode
  by_cases hx : x = u
  · subst hx
    by_cases hlt : x < g.nodes.length
    · rw [getD_modifyAt_eq f noNode x g.nodes hlt, hf]
    · rw [modifyAt_oob f x g.nodes (le_of_not_lt hlt)]
  · rw [getD_modifyAt_ne f noNode u x g.nodes (fun h => hx h.symm)]

theorem sameShape_refl (g : HGraph) : SameShape g g :=
  ⟨Eq.refl _, Eq.refl _, Eq.refl _, Eq.refl _, Eq.refl _, fun _ => Eq.refl _⟩

theorem SameShape.trans {g1 g2 g3 : HGraph}
    (h12 : SameShape g1 g2) (h23 : SameShape g2 g3) : SameShape g1 g3 :=
  ⟨h23.1.trans h12.1, h23.2.1.trans h12.2.1, h23.2.2.1.trans h12.2.2.1,
   h23.2.2.2.1.trans h12.2.2.2.1, h23.2.2.2.2.1.trans h12.2.2.2.2.1,
   fun u => (h23.2.2.2.2.2 u).trans (h12.2.2.2.2.2 u)⟩

theorem pushNbr_shape (g : HGraph) (u L v : ℕ) : SameShape g (pushNbr g u L v) :=
  updNode_shape g u _ (fun nd => length_modifyAt _ L nd.neighbors)

theorem setNbrs_shape (g : HGraph) (u L : ℕ) (new : List ℕ) :
    SameShape g (setNbrs g u L new) :=
  updNode_shape g u _ (fun nd => length_modifyAt _ L nd.neighbors)

theorem prune_shape (cfg : HCfg) (g : HGraph) (nodeId layer M : ℕ) :
    SameShape g (prune_connections cfg g nodeId layer M) := by
  unfold prune_connections
  by_cases h : (nbrsAt g nodeId layer).length ≤ M
  · simpa [h] using sameShape_refl g
  · simpa [h] using setNbrs_shape g nodeId layer _

theorem connectOne_shape (cfg : HCfg) (newId lc Mlc : ℕ) (g : HGraph) (nb : Cand) :
    SameShape g (connectOne cfg newId lc Mlc g nb) := by
  unfold connectOne
  have h1 := pushNbr_shape g newId lc nb.id
  have h2 := pushNbr_shape (pushNbr g newId lc nb.id) nb.id lc newId
  have h12 := h1.trans h2
  by_cases h : Mlc < (nbrsAt (pushNbr (pushNbr g newId lc nb.id) nb.id lc newId) nb.id lc).length
  · simpa [h] using h12.trans (prune_shape cfg _ nb.id lc Mlc)
  · simpa [h] using h12

theorem connectFold_shape (cfg : HCfg) (newId lc Mlc : ℕ) :
    ∀ (nbrs : List Cand) (g : HGraph),
      SameShape g (nbrs.foldl (connectOne cfg newId lc Mlc) g) := by
  intro nbrs
  induction nbrs with
  | nil => intro g; exact sameShape_refl g
  | cons nb rest ih =>
      intro g
      exact (connectOne_shape cfg newId lc Mlc g nb).trans (ih _)

theorem connectLayer_shape (cfg : HCfg) (q : Vec) (newId lc : ℕ) (g : HGraph) (curr : ℕ) :
    SameShape g (connectLayer cfg q newId lc (g, curr)).1 := by
  unfold connectLayer
  exact connectFold_shape cfg newId lc _ _ g

theorem layersFold_shape (cfg : HCfg) (q : Vec) (newId : ℕ) :
    ∀ (layers : List ℕ) (g : HGraph) (curr : ℕ),
      SameShape g (layers.foldl (fun st lc => connectLayer cfg q newId lc st) (g, curr)).1 := by
  intro layers
  induction layers with
  | nil => intro g curr; exact sameShape_refl g
  | cons lc rest ih =>
      intro g curr
      have h1 := connectLayer_shape cfg q newId lc g curr
      have heq : connectLayer cfg q newId lc (g, curr) =
          ((connectLayer cfg q newId lc (g, curr)).1,
           (connectLayer cfg q newId lc (g, curr)).2) := rfl
      rw [List.foldl_cons, heq]
      exact h1.trans (ih _ _)

end HNSWIndex

namespace HNSWIndex

theorem add_core_num_data (cfg : HCfg) (g : HGraph) (lvl : ℕ) (v : Vec) :
    (add_core cfg g lvl v).num = g.num + 1 ∧ (add_core cfg g lvl v).data = g.data ++ v := by
  simp only [add_core]
  by_cases h0 : g.num = 0
  · simp [h0]
  · simp only [if_neg h0]
    split
    · constructor
      · show (_ : HGraph).num + 1 = g.num + 1
        rw [(layersFold_shape cfg v g.num _ _ _).1]
      · show (_ : HGraph).data = g.data ++ v
        rw [(layersFold_shape cfg v g.num _ _ _).2.1]
    · constructor
      · show (_ : HGraph).num + 1 = g.num + 1
        rw [(layersFold_shape cfg v g.num _ _ _).1]
      · show (_ : HGraph).data = g.data ++ v
        rw [(layersFold_shape cfg v g.num _ _ _).2.1]

theorem add_core_num (cfg : HCfg) (g : HGraph) (lvl : ℕ) (v : Vec) :
    (add_core cfg g lvl v).num = g.num + 1 := (add_core_num_data cfg g lvl v).1

theorem add_core_data (cfg : HCfg) (g : HGraph) (lvl : ℕ) (v : Vec) :
    (add_core cfg g lvl v).data = g.data ++ v := (add_core_num_data cfg g lvl v).2

theorem runOp_add_err {s : HState} {v : Vec} (h : v.length ≠ s.cfg.dim) :
    runOp s (.add v) = s := by
  simp [runOp, add, h]

theorem runOp_add_ok {s : HState} {v : Vec} (h : v.length = s.cfg.dim) :
    runOp s (.add v) =
      { s with g := add_core s.cfg s.g (s.levels s.rngPos) v, rngPos := s.rngPos + 1 } := by
  simp [runOp, add, h]

theorem addSeq_cfg : ∀ (vs : List Vec) (s : HState), (addSeq s vs).cfg = s.cfg := by
  intro vs
  induction vs with
  | nil => intro s; rfl
  | cons v rest ih =>
      intro s
      show (addSeq (runOp s (.add v)) rest).cfg = s.cfg
      by_cases h : v.length = s.cfg.dim
      · rw [runOp_add_ok h, ih]
      · rw [runOp_add_err h, ih]

theorem addSeq_num : ∀ (vs : List Vec) (s : HState),
    (∀ v ∈ vs, v.length = s.cfg.dim) → (addSeq s vs).g.num = s.g.num + vs.length := by
  intro vs
  induction vs with
  | nil => intro s _; rfl
  | cons v rest ih =>
      intro s hv
      show (addSeq (runOp s (.add v)) rest).g.num = s.g.num + (v :: rest).length
      rw [runOp_add_ok (hv v (List.mem_cons_self v rest))]
      rw [ih { s with g := add_core s.cfg s.g (s.levels s.rngPos) v, rngPos := s.rngPos + 1 }
           (fun w hw => hv w (List.mem_cons_of_mem v hw))]
      simp only [add_core_num, List.length_cons]
      omega

theorem add_batch_split : ∀ (good : List Vec) (s : HState) (bad : Vec) (rest : List Vec),
    (∀ v ∈ good, v.length = s.cfg.dim) → bad.length ≠ s.cfg.dim →
    add_batch s (good ++ bad :: rest) = (addSeq s good, true) := by
  intro good
  induction good with
  | nil =>
      intro s bad rest _ hbad
      show add_batch s (bad :: rest) = (addSeq s [], true)
      rw [add_batch, add, if_pos hbad]
      rfl
  | cons v good' ih =>
      intro s bad rest hgood hbad
      have hv := hgood v (List.mem_cons_self v good')
      have hne : ¬ v.length ≠ s.cfg.dim := by rw [hv]; exact fun h => h rfl
      show add_batch s (v :: (good' ++ bad :: rest)) = (addSeq s (v :: good'), true)
      rw [add_batch, add, if_neg hne]
      show add_batch { s with g := add_core s.cfg s.g (s.levels s.rngPos) v,
                              rngPos := s.rngPos + 1 } (good' ++ bad :: rest) =
           (addSeq s (v :: good'), true)
      rw [ih { s with g := add_core s.cfg s.g (s.levels s.rngPos) v, rngPos := s.rngPos + 1 }
           bad rest (fun w hw => hgood w (List.mem_cons_of_mem v hw)) hbad]
      rw [show addSeq s (v :: good') = addSeq (runOp s (.add v)) good' from rfl,
          runOp_add_ok hv]

end HNSWIndex

namespace HNSWIndex

theorem addSeq_sim (p : ℕ) : ∀ (vs : List Vec) (t f : HState),
    t.cfg = f.cfg → t.g = f.g → t.rngPos = f.rngPos + p →
    (∀ n, t.levels (n + p) = f.levels n) →
    (addSeq t vs).g = (addSeq f vs).g ∧
      (addSeq t vs).rngPos = (addSeq f vs).rngPos + p := by
  intro vs
  induction vs with
  | nil => intro t f hc hg hp _; exact ⟨hg, hp⟩
  | cons v rest ih =>
      intro t f hc hg hp hlev
      show (addSeq (runOp t (.add v)) rest).g = (addSeq (runOp f (.add v)) rest).g ∧
        (addSeq (runOp t (.add v)) rest).rngPos = (addSeq (runOp f (.add v)) rest).rngPos + p
      by_cases hd : v.length = t.cfg.dim
      · have hdf : v.length = f.cfg.dim := hc ▸ hd
        rw [runOp_add_ok hd, runOp_add_ok hdf]
        refine ih _ _ hc ?_ (by simp only []; omega) hlev
        show add_core t.cfg t.g (t.levels t.rngPos) v = add_core f.cfg f.g (f.levels f.rngPos) v
        rw [hc, hg, hp, Nat.add_comm f.rngPos p, Nat.add_comm p f.rngPos]
        rw [show t.levels (f.rngPos + p) = f.levels f.rngPos from hlev f.rngPos]
      · have hdf : v.length ≠ f.cfg.dim := hc ▸ hd
        rw [runOp_add_err hd, runOp_add_err hdf]
        exact ih _ _ hc hg hp hlev

end HNSWIndex

/-- C2 (amended): a dimension mismatch in `add_batch` raises and leaves the
brute-force index unchanged, but the HNSW `add_batch` (a plain loop over
`add`) keeps every vector that preceded the first mismatched one, so its
`len()` grows by their count. -/
theorem C2_batch_validation_amended :
    (∀ (s : VectorBatchInserter.BState) (vs : List Vec),
      (∃ v ∈ vs, v.length ≠ s.dim) →
      VectorBatchInserter.add_batch s vs = (s, true)) ∧
    (∀ (s : HNSWIndex.HState) (good : List Vec) (bad : Vec) (rest : List Vec),
      (∀ v ∈ good, v.length = s.cfg.dim) → bad.length ≠ s.cfg.dim →
      HNSWIndex.add_batch s (good ++ bad :: rest) = (HNSWIndex.addSeq s good, true) ∧
      (HNSWIndex.addSeq s good).g.num = s.g.num + good.length) := by
  constructor
  · rintro s vs ⟨v, hv, hne⟩
    unfold VectorBatchInserter.add_batch
    rw [if_pos (List.any_eq_true.mpr ⟨v, hv, by simpa using hne⟩)]
  · intro s good bad rest hg hb
    exact ⟨HNSWIndex.add_batch_split good s bad rest hg hb, HNSWIndex.addSeq_num good s hg⟩

/-- C2 counterexample: on a 1-dimensional HNSW index, the batch
`[[1], [1,2]]` raises `DimensionMismatch` but leaves `len() = 1`, not the
original 0, so the batch was not atomic for the HNSW index. -/
theorem C2_counterexample :
    (HNSWIndex.add_batch HNSWIndex.cxNew [[1], [1, 2]]).2 = true ∧
    (HNSWIndex.add_batch HNSWIndex.cxNew [[1], [1, 2]]).1.g.num = 1 ∧
    HNSWIndex.cxNew.g.num = 0 := ⟨by decide, by decide, by decide⟩

/-- C3 (amended): `clear()` resets the graph but does not re-seed the
random generator; rebuilding after `clear()` therefore coincides with a
fresh index whose level stream starts where the old one stopped (position
`rngPos`), not with the fresh index itself. -/
theorem C3_clear_rebuild_amended (s : HNSWIndex.HState) (vs : List Vec)
    (hM : s.cfg.Mmax = 2 * s.cfg.M) :
    (HNSWIndex.clear s).rngPos = s.rngPos ∧
    (HNSWIndex.clear s).g = ⟨[], [], 0, 0, 0⟩ ∧
    (HNSWIndex.addSeq (HNSWIndex.clear s) vs).g =
      (HNSWIndex.addSeq (HNSWIndex.hnswNew s.cfg.dim s.cfg.maxElements s.cfg.M s.cfg.efC
        (fun n => s.levels (n + s.rngPos))) vs).g := by
  obtain ⟨⟨d, me, M0, Mm, ec⟩, g0, ef0, lv, p⟩ := s
  simp only [] at hM
  refine ⟨rfl, rfl, ?_⟩
  show (HNSWIndex.addSeq (HNSWIndex.clear ⟨⟨d, me, M0, Mm, ec⟩, g0, ef0, lv, p⟩) vs).g =
    (HNSWIndex.addSeq (HNSWIndex.hnswNew d me M0 ec (fun n => lv (n + p))) vs).g
  refine (HNSWIndex.addSeq_sim p vs
    (HNSWIndex.clear ⟨⟨d, me, M0, Mm, ec⟩, g0, ef0, lv, p⟩)
    (HNSWIndex.hnswNew d me M0 ec (fun n => lv (n + p))) ?_ rfl ?_ ?_).1
  · show HNSWIndex.HCfg.mk d me M0 Mm ec = HNSWIndex.HCfg.mk d me M0 (M0 * 2) ec
    rw [hM, Nat.mul_comm]
  · show p = 0 + p
    omega
  · intro n
    rfl

/-- C3 counterexample: with a level stream drawing 0 then 1, inserting one
vector, clearing, and re-inserting it yields `max_layer = 1`, while the
fresh index yields `max_layer = 0`: the rebuilt state differs from the
fresh one because `clear()` left the generator advanced. -/
theorem C3_counterexample :
    (HNSWIndex.runOps HNSWIndex.cxNew2 [.add [0], .clear, .add [0]]).g.maxLayer = 1 ∧
    (HNSWIndex.runOps HNSWIndex.cxNew2 [.add [0]]).g.maxLayer = 0 :=
  ⟨by decide, by decide⟩

/-- C4 (amended): `set_ef` performs no validation: it stores any argument,
including 0, into `ef_search_`, touching nothing else. -/
theorem C4_set_ef_amended (s : HNSWIndex.HState) (ef : ℕ) :
    (HNSWIndex.set_ef s ef).efSearch = ef ∧
    (HNSWIndex.set_ef s ef).g = s.g ∧
    (HNSWIndex.set_ef s ef).cfg = s.cfg ∧
    (HNSWIndex.set_ef s ef).rngPos = s.rngPos := ⟨rfl, rfl, rfl, rfl⟩

/-- C4 counterexample: `set_ef 0` is accepted and overwrites the previous
`ef_search_ = 100`, though the claim says values below 1 are rejected and
`ef_search` left unchanged. -/
theorem C4_counterexample :
    HNSWIndex.cxNew.efSearch = 100 ∧
    (HNSWIndex.set_ef HNSWIndex.cxNew 0).efSearch = 0 := ⟨rfl, rfl⟩

/-- C5 (amended): for a non-empty index and a well-dimensioned query,
`search` returns the first `min(k, len())` entries of the layer-0
`search_layer` run with beam width `max(ef_search, min(k, len()))`; hence it
returns `min(min(k, len()), |layer-0 result|)` pairs - possibly fewer than
`min(k, len())` when fewer nodes are reachable at layer 0 - with
nondecreasing distances, each id paired with its true distance. -/
theorem C5_search_truncation_amended (s : HNSWIndex.HState) (q : Vec) (k : ℕ)
    (hq : q.length = s.cfg.dim) (h0 : s.g.num ≠ 0) :
    ∃ r, HNSWIndex.search s q k = .ok r ∧
      r = ((HNSWIndex.search_layer s.cfg s.g q
            (HNSWIndex.descend s.cfg s.g q s.g.entry
              (HNSWIndex.downList s.g.maxLayer s.g.maxLayer))
            (max s.efSearch (min k s.g.num)) 0).take (min k s.g.num)).map
          (fun c => (c.id, c.dist)) ∧
      r.length = min (min k s.g.num)
        (HNSWIndex.search_layer s.cfg s.g q
          (HNSWIndex.descend s.cfg s.g q s.g.entry
            (HNSWIndex.downList s.g.maxLayer s.g.maxLayer))
          (max s.efSearch (min k s.g.num)) 0).length ∧
      r.length ≤ min k s.g.num ∧
      (r.map Prod.snd).Pairwise (· ≤ ·) ∧
      (∀ p ∈ r, p.2 = HNSWIndex.dQ s.cfg s.g q p.1) := by
  obtain ⟨vis', hSLI⟩ := HNSWIndex.search_layer_SLI s.cfg s.g q
    (HNSWIndex.descend s.cfg s.g q s.g.entry
      (HNSWIndex.downList s.g.maxLayer s.g.maxLayer))
    (max s.efSearch (min k s.g.num)) 0
  refine ⟨_, ?_, rfl, ?_, ?_, ?_, ?_⟩
  · unfold HNSWIndex.search
    rw [if_neg (by simp [hq]), if_neg h0]
  · rw [List.length_map, List.length_take]
  · rw [List.length_map, List.length_take]
    exact min_le_left _ _
  · have h1 := hSLI.sorted.sublist (List.take_sublist (min k s.g.num) _)
    rw [List.map_map]
    exact List.Pairwise.map _ (fun a b h => h) h1
  · intro p hp
    rcases List.mem_map.mp hp with ⟨c, hc, rfl⟩
    exact hSLI.dists c ((List.take_sublist _ _).subset hc)

/-- C5 counterexample: in the concrete four-point index `cxState`
(`dim = 1`, `M = 1`), node 2 has lost all of its in-edges to pruning, so
`search([4], 4)` returns only 3 pairs although `min(k, len()) = 4`. -/
theorem C5_counterexample :
    (HNSWIndex.search HNSWIndex.cxState [4] 4).toOption = some [(3, 0), (0, 16), (1, 36)] ∧
    HNSWIndex.cxState.g.num = 4 ∧
    ((HNSWIndex.search HNSWIndex.cxState [4] 4).toOption.getD []).length ≠
      min 4 HNSWIndex.cxState.g.num :=
  ⟨by decide, by decide, by decide⟩

namespace HNSWIndex

theorem add_batch_raises : ∀ (vs : List Vec) (s : HState),
    (add_batch s vs).2 = true ↔ ∃ v ∈ vs, v.length ≠ s.cfg.dim := by
  intro vs
  induction vs with
  | nil => intro s; simp [add_batch]
  | cons v rest ih =>
      intro s
      by_cases hd : v.length = s.cfg.dim
      · have hne : ¬ v.length ≠ s.cfg.dim := fun h => h hd
        rw [add_batch, add, if_neg hne]
        show (add_batch { s with g := add_core s.cfg s.g (s.levels s.rngPos) v,
                                 rngPos := s.rngPos + 1 } rest).2 = true ↔ _
        rw [ih]
        constructor
        · rintro ⟨w, hw, hwne⟩
          exact ⟨w, List.mem_cons_of_mem v hw, hwne⟩
        · rintro ⟨w, hw, hwne⟩
          rcases List.mem_cons.mp hw with rfl | hw
          · exact absurd hd hwne
          · exact ⟨w, hw, hwne⟩
      · rw [add_batch, add, if_pos hd]
        simp only [true_iff]
        exact ⟨v, List.mem_cons_self v rest, hd⟩

end HNSWIndex

/-- C9: `add`, `add_batch` and `search` of both indexes raise
`DimensionMismatch` exactly when some input vector's length differs from
`dim`; in particular `search` checks the query dimension even on an empty
index (the state is universally quantified, so it covers `len() = 0`). -/
theorem C9_dimension_mismatch_iff :
    (∀ (s : VectorBatchInserter.BState) (v : Vec),
      VectorBatchInserter.add s v = .error () ↔ v.length ≠ s.dim) ∧
    (∀ (s : VectorBatchInserter.BState) (vs : List Vec),
      (VectorBatchInserter.add_batch s vs).2 = true ↔ ∃ v ∈ vs, v.length ≠ s.dim) ∧
    (∀ (s : VectorBatchInserter.BState) (q : Vec) (k : ℕ),
      VectorBatchInserter.search s q k = .error () ↔ q.length ≠ s.dim) ∧
    (∀ (s : HNSWIndex.HState) (v : Vec),
      HNSWIndex.add s v = .error () ↔ v.length ≠ s.cfg.dim) ∧
    (∀ (s : HNSWIndex.HState) (vs : List Vec),
      (HNSWIndex.add_batch s vs).2 = true ↔ ∃ v ∈ vs, v.length ≠ s.cfg.dim) ∧
    (∀ (s : HNSWIndex.HState) (q : Vec) (k : ℕ),
      HNSWIndex.search s q k = .error () ↔ q.length ≠ s.cfg.dim) := by
  refine ⟨?_, ?_, ?_, ?_, ?_, ?_⟩
  · intro s v
    unfold VectorBatchInserter.add
    by_cases h : v.length ≠ s.dim
    · simp [h]
    · simp [h]
  · intro s vs
    unfold VectorBatchInserter.add_batch
    by_cases h : vs.any (fun v => v.length ≠ s.dim)
    · simp only [if_pos h]
      simp only [List.any_eq_true, decide_eq_true_eq] at h
      simpa using h
    · simp only [if_neg h]
      simp only [List.any_eq_true, decide_eq_true_eq] at h
      simpa using h
  · intro s q k
    unfold VectorBatchInserter.search
    by_cases h : q.length ≠ s.dim
    · simp [h]
    · simp only [if_neg h]
      by_cases h0 : s.num = 0
      · simp [h0, h]
      · simp [h0, h]
  · intro s v
    unfold HNSWIndex.add
    by_cases h : v.length ≠ s.cfg.dim
    · simp [h]
    · simp [h]
  · intro s vs
    exact HNSWIndex.add_batch_raises vs s
  · intro s q k
    unfold HNSWIndex.search
    by_cases h : q.length ≠ s.cfg.dim
    · simp [h]
    · simp only [if_neg h]
      by_cases h0 : s.g.num = 0
      · simp [h0, h]
      · simp [h0, h]

namespace HNSWIndex

theorem nbrsAt_oob (g : HGraph) (u L : ℕ) (h : g.nodes.length ≤ u) : nbrsAt g u L = [] := by
  unfold nbrsAt
  rw [List.getD_eq_default _ _ h]
  cases L <;> rfl

theorem mem_layerIds (g : HGraph) (L u : ℕ) :
    u ∈ layerIds g L ↔ ∃ x, x < g.nodes.length ∧ u ∈ nbrsAt g x L := by
  unfold layerIds
  rw [List.mem_flatten]
  constructor
  · rintro ⟨l, hl, hu⟩
    rcases List.mem_map.mp hl with ⟨nd, hnd, rfl⟩
    rcases List.getElem_of_mem hnd with ⟨i, hi, hget⟩
    refine ⟨i, hi, ?_⟩
    unfold nbrsAt
    rw [List.getD_eq_getElem _ _ hi, hget]
    exact hu
  · rintro ⟨x, hx, hu⟩
    refine ⟨(g.nodes.getD x noNode).neighbors.getD L [], ?_, hu⟩
    refine List.mem_map.mpr ⟨g.nodes.getD x noNode, ?_, rfl⟩
    rw [List.getD_eq_getElem _ _ hx]
    exact List.getElem_mem hx

theorem nbrsAt_pushNbr_self (g : HGraph) (u L v : ℕ)
    (hu : u < g.nodes.length) (hL : L < layersOf g u) :
    nbrsAt (pushNbr g u L v) u L = nbrsAt g u L ++ [v] := by
  unfold nbrsAt pushNbr updNode
  rw [getD_modifyAt_eq _ _ u g.nodes hu]
  exact getD_modifyAt_eq _ _ L _ hL

theorem nbrsAt_pushNbr_other (g : HGraph) (u L v x L' : ℕ)
    (h : x ≠ u ∨ L' ≠ L) :
    nbrsAt (pushNbr g u L v) x L' = nbrsAt g x L' := by
  unfold nbrsAt pushNbr updNode
  by_cases hx : x = u
  · subst hx
    rcases h with h | h
    · exact absurd rfl h
    · by_cases hub : x < g.nodes.length
      · rw [getD_modifyAt_eq _ _ x g.nodes hub]
        exact getD_modifyAt_ne _ _ L L' _ (fun he => h he.symm)
      · rw [modifyAt_oob _ x g.nodes (le_of_not_lt hub)]
  · rw [getD_modifyAt_ne _ _ u x g.nodes (fun he => hx he.symm)]

theorem nbrsAt_setNbrs_self (g : HGraph) (u L : ℕ) (new : List ℕ)
    (hu : u < g.nodes.length) (hL : L < layersOf g u) :
    nbrsAt (setNbrs g u L new) u L = new := by
  unfold nbrsAt setNbrs updNode
  rw [getD_modifyAt_eq _ _ u g.nodes hu]
  exact getD_modifyAt_eq _ _ L _ hL

theorem nbrsAt_setNbrs_other (g : HGraph) (u L : ℕ) (new : List ℕ) (x L' : ℕ)
    (h : x ≠ u ∨ L' ≠ L) :
    nbrsAt (setNbrs g u L new) x L' = nbrsAt g x L' := by
  unfold nbrsAt setNbrs updNode
  by_cases hx : x = u
  · subst hx
    rcases h with h | h
    · exact absurd rfl h
    · by_cases hub : x < g.nodes.length
      · rw [getD_modifyAt_eq _ _ x g.nodes hub]
        exact getD_modifyAt_ne _ _ L L' _ (fun he => h he.symm)
      · rw [modifyAt_oob _ x g.nodes (le_of_not_lt hub)]
  · rw [getD_modifyAt_ne _ _ u x g.nodes (fun he => hx he.symm)]

theorem nbrsAt_layer_oob (g : HGraph) (u L : ℕ) (h : layersOf g u ≤ L) :
    nbrsAt g u L = [] := by
  unfold nbrsAt
  unfold layersOf at h
  exact List.getD_eq_default _ _ h

theorem prune_eq_of_le (cfg : HCfg) (g : HGraph) (u L M : ℕ)
    (h : (nbrsAt g u L).length ≤ M) : prune_connections cfg g u L M = g := by
  unfold prune_connections
  rw [if_pos h]

theorem prune_subset (cfg : HCfg) (g : HGraph) (u L M : ℕ) :
    ∀ w ∈ nbrsAt (prune_connections cfg g u L M) u L, w ∈ nbrsAt g u L := by
  intro w hw
  unfold prune_connections at hw
  by_cases h : (nbrsAt g u L).length ≤ M
  · rwa [if_pos h] at hw
  · rw [if_neg h] at hw
    by_cases hu : u < g.nodes.length
    · by_cases hL : L < layersOf g u
      · rw [nbrsAt_setNbrs_self _ _ _ _ hu hL] at hw
        rcases List.mem_map.mp hw with ⟨c, hc, rfl⟩
        have hc2 : c ∈ sortByKey Cand.dist
            ((nbrsAt g u L).map (fun nb => Cand.mk nb (dII cfg g u nb))) :=
          (List.take_sublist _ _).subset hc
        have hc3 := (sortByKey_perm _ _).mem_iff.mp hc2
        rcases List.mem_map.mp hc3 with ⟨nb, hnb, rfl⟩
        exact hnb
      · rw [nbrsAt_layer_oob g u L (le_of_not_lt hL)] at h
        simp at h
    · rw [nbrsAt_oob g u L (le_of_not_lt hu)] at h
      simp at h

theorem prune_len_le (cfg : HCfg) (g : HGraph) (u L M : ℕ)
    (h : M < (nbrsAt g u L).length) :
    (nbrsAt (prune_connections cfg g u L M) u L).length ≤ M := by
  unfold prune_connections
  rw [if_neg (not_le.mpr h)]
  have hu : u < g.nodes.length := by
    by_contra hu
    rw [nbrsAt_oob g u L (le_of_not_lt hu)] at h
    simp at h
  have hL : L < layersOf g u := by
    by_contra hL
    rw [nbrsAt_layer_oob g u L (le_of_not_lt hL)] at h
    simp at h
  rw [nbrsAt_setNbrs_self _ _ _ _ hu hL, List.length_map, List.length_take]
  exact min_le_left _ _

theorem prune_other (cfg : HCfg) (g : HGraph) (u L M x L' : ℕ)
    (h : x ≠ u ∨ L' ≠ L) :
    nbrsAt (prune_connections cfg g u L M) x L' = nbrsAt g x L' := by
  unfold prune_connections
  by_cases hle : (nbrsAt g u L).length ≤ M
  · rw [if_pos hle]
  · rw [if_neg hle]
    exact nbrsAt_setNbrs_other g u L _ x L' h

end HNSWIndex

namespace HNSWIndex

theorem getD_replicate_nil : ∀ (n L : ℕ), (List.replicate n ([] : List ℕ)).getD L [] = [] := by
  intro n
  induction n with
  | zero => intro L; cases L <;> rfl
  | succ m ih =>
      intro L
      cases L with
      | zero => rfl
      | succ L' => simpa [List.replicate] using ih L'

theorem search_layer_facts (cfg : HCfg) (g : HGraph) (q : Vec) (e0 ef layer base : ℕ)
    (hedge : ∀ x L u, u ∈ nbrsAt g x L → u < base ∧ L + 1 ≤ layersOf g u)
    (he0 : e0 < base) (he0lay : layer + 1 ≤ layersOf g e0) :
    ∀ c ∈ search_layer cfg g q e0 ef layer,
      c.id < base ∧ layer + 1 ≤ layersOf g c.id := by
  obtain ⟨vis', h⟩ := search_layer_SLI cfg g q e0 ef layer
  intro c hc
  rcases h.origin c hc with h1 | h1
  · exact h1 ▸ ⟨he0, he0lay⟩
  · rcases (mem_layerIds g layer c.id).mp h1 with ⟨x, _, hx⟩
    exact hedge x layer c.id hx

theorem descend_bound (cfg : HCfg) (g : HGraph) (q : Vec) (base : ℕ)
    (hedge : ∀ x L u, u ∈ nbrsAt g x L → u < base ∧ L + 1 ≤ layersOf g u) :
    ∀ (cnt hi curr : ℕ), curr < base → hi + 1 ≤ layersOf g curr →
      descend cfg g q curr (downList hi cnt) < base ∧
      (hi - cnt) + 1 ≤ layersOf g (descend cfg g q curr (downList hi cnt)) := by
  intro cnt
  induction cnt with
  | zero =>
      intro hi curr hc hl
      exact ⟨hc, by simpa using hl⟩
  | succ c ih =>
      intro hi curr hc hl
      have harith : hi - (c + 1) = (hi - 1) - c := by omega
      show descend cfg g q curr (hi :: downList (hi - 1) c) < base ∧
        hi - (c + 1) + 1 ≤ layersOf g (descend cfg g q curr (hi :: downList (hi - 1) c))
      rw [descend, List.foldl_cons, harith]
      rcases hmatch : search_layer cfg g q curr 1 hi with _ | ⟨c0, rest⟩
      · exact ih (hi - 1) curr hc (by omega)
      · have hc0 : c0 ∈ search_layer cfg g q curr 1 hi := by
          rw [hmatch]
          exact List.mem_cons_self _ _
        have hf := search_layer_facts cfg g q curr 1 hi base hedge hc hl c0 hc0
        exact ih (hi - 1) c0.id hf.1 (by omega)

end HNSWIndex

namespace HNSWIndex

theorem connectFold_inv (cfg : HCfg) (newId lc Mlc : ℕ) (g0 : HGraph)
    (hMlc : Mlc = if lc = 0 then cfg.Mmax else cfg.M) :
    ∀ (nbrs : List Cand) (done : List Cand) (g : HGraph),
      (∀ nb ∈ nbrs, nb.id ≠ newId ∧ nb.id < g0.nodes.length ∧ lc < layersOf g0 nb.id) →
      newId < g0.nodes.length → lc < layersOf g0 newId →
      g.nodes.length = g0.nodes.length →
      (∀ u, layersOf g u = layersOf g0 u) →
      nbrsAt g newId lc = done.map Cand.id →
      (∀ L, L ≠ lc → nbrsAt g newId L = nbrsAt g0 newId L) →
      (∀ x L, x ≠ newId → L ≠ lc → nbrsAt g x L = nbrsAt g0 x L) →
      (∀ x, x ≠ newId → ∀ u, u ∈ nbrsAt g x lc → u = newId ∨ u ∈ nbrsAt g0 x lc) →
      (∀ x, x ≠ newId → (nbrsAt g x lc).length ≤ (if lc = 0 then cfg.Mmax else cfg.M)) →
      (nbrs.foldl (connectOne cfg newId lc Mlc) g).nodes.length = g0.nodes.length ∧
      (∀ u, layersOf (nbrs.foldl (connectOne cfg newId lc Mlc) g) u = layersOf g0 u) ∧
      nbrsAt (nbrs.foldl (connectOne cfg newId lc Mlc) g) newId lc = (done ++ nbrs).map Cand.id ∧
      (∀ L, L ≠ lc →
        nbrsAt (nbrs.foldl (connectOne cfg newId lc Mlc) g) newId L = nbrsAt g0 newId L) ∧
      (∀ x L, x ≠ newId → L ≠ lc →
        nbrsAt (nbrs.foldl (connectOne cfg newId lc Mlc) g) x L = nbrsAt g0 x L) ∧
      (∀ x, x ≠ newId → ∀ u, u ∈ nbrsAt (nbrs.foldl (connectOne cfg newId lc Mlc) g) x lc →
        u = newId ∨ u ∈ nbrsAt g0 x lc) ∧
      (∀ x, x ≠ newId →
        (nbrsAt (nbrs.foldl (connectOne cfg newId lc Mlc) g) x lc).length ≤
          (if lc = 0 then cfg.Mmax else cfg.M)) := by
  intro nbrs
  induction nbrs with
  | nil =>
      intro done g _ _ _ h1 h2 h3 h4 h5 h6 h7
      exact ⟨h1, h2, by simpa using h3, h4, h5, h6, h7⟩
  | cons nb rest ih =>
      intro done g hnb hnewb hnewlay h1 h2 h3 h4 h5 h6 h7
      obtain ⟨hne, hnbb, hnblay⟩ := hnb nb (List.mem_cons_self nb rest)
      -- effect of the two pushes
      set g1 := pushNbr g newId lc nb.id with hg1
      set g2 := pushNbr g1 nb.id lc newId with hg2
      have sh1 := pushNbr_shape g newId lc nb.id
      have sh2 := pushNbr_shape g1 nb.id lc newId
      have hlen1 : g1.nodes.length = g0.nodes.length := sh1.2.2.2.2.1.trans h1
      have hlay1 : ∀ u, layersOf g1 u = layersOf g0 u :=
        fun u => (sh1.2.2.2.2.2 u).trans (h2 u)
      have hlen2 : g2.nodes.length = g0.nodes.length := sh2.2.2.2.2.1.trans hlen1
      have hlay2 : ∀ u, layersOf g2 u = layersOf g0 u :=
        fun u => (sh2.2.2.2.2.2 u).trans (hlay1 u)
      -- new node's list after both pushes
      have e1 : nbrsAt g1 newId lc = (done ++ [nb]).map Cand.id := by
        rw [hg1, nbrsAt_pushNbr_self g newId lc nb.id (by omega) (by rw [h2]; exact hnewlay), h3]
        simp
      have e2 : nbrsAt g2 newId lc = (done ++ [nb]).map Cand.id := by
        rw [hg2, nbrsAt_pushNbr_other g1 nb.id lc newId newId lc (Or.inl (fun h => hne h.symm))]
        exact e1
      -- nb's list after both pushes
      have f1 : nbrsAt g1 nb.id lc = nbrsAt g nb.id lc := by
        rw [hg1, nbrsAt_pushNbr_other g newId lc nb.id nb.id lc (Or.inl hne)]
      have f2 : nbrsAt g2 nb.id lc = nbrsAt g nb.id lc ++ [newId] := by
        rw [hg2, nbrsAt_pushNbr_self g1 nb.id lc newId (by omega) (by rw [hlay1]; exact hnblay), f1]
      -- other nodes and layers untouched by the pushes
      have o2 : ∀ x L, (x ≠ newId ∨ L ≠ lc) → (x ≠ nb.id ∨ L ≠ lc) →
          nbrsAt g2 x L = nbrsAt g x L := by
        intro x L hx hnbx
        rw [hg2, nbrsAt_pushNbr_other g1 nb.id lc newId x L hnbx]
        rw [hg1, nbrsAt_pushNbr_other g newId lc nb.id x L hx]
      -- the conditional prune
      set g3 := if Mlc < (nbrsAt g2 nb.id lc).length
        then prune_connections cfg g2 nb.id lc Mlc else g2 with hg3
      have sh3 : SameShape g2 g3 := by
        rw [hg3]
        by_cases hp : Mlc < (nbrsAt g2 nb.id lc).length
        · simpa [hp] using prune_shape cfg g2 nb.id lc Mlc
        · simpa [hp] using sameShape_refl g2
      have hlen3 : g3.nodes.length = g0.nodes.length := sh3.2.2.2.2.1.trans hlen2
      have hlay3 : ∀ u, layersOf g3 u = layersOf g0 u :=
        fun u => (sh3.2.2.2.2.2 u).trans (hlay2 u)
      have o3 : ∀ x L, (x ≠ nb.id ∨ L ≠ lc) → nbrsAt g3 x L = nbrsAt g2 x L := by
        intro x L hx
        rw [hg3]
        by_cases hp : Mlc < (nbrsAt g2 nb.id lc).length
        · simp only [if_pos hp]
          exact prune_other cfg g2 nb.id lc Mlc x L hx
        · simp only [if_neg hp]
      have e3 : nbrsAt g3 newId lc = (done ++ [nb]).map Cand.id := by
        rw [o3 newId lc (Or.inl (fun h => hne h.symm))]
        exact e2
      have f3sub : ∀ u, u ∈ nbrsAt g3 nb.id lc → u = newId ∨ u ∈ nbrsAt g nb.id lc := by
        intro u hu
        have hu2 : u ∈ nbrsAt g2 nb.id lc := by
          rw [hg3] at hu
          by_cases hp : Mlc < (nbrsAt g2 nb.id lc).length
          · rw [if_pos hp] at hu
            exact prune_subset cfg g2 nb.id lc Mlc u hu
          · rwa [if_neg hp] at hu
        rw [f2] at hu2
        rcases List.mem_append.mp hu2 with h | h
        · exact Or.inr h
        · exact Or.inl (List.mem_singleton.mp h)
      have f3len : (nbrsAt g3 nb.id lc).length ≤ (if lc = 0 then cfg.Mmax else cfg.M) := by
        rw [hg3]
        by_cases hp : Mlc < (nbrsAt g2 nb.id lc).length
        · rw [if_pos hp]
          exact hMlc ▸ prune_len_le cfg g2 nb.id lc Mlc hp
        · rw [if_neg hp]
          exact hMlc ▸ le_of_not_lt hp
      -- connectOne g nb is definitionally g3
      have hco : connectOne cfg newId lc Mlc g nb = g3 := rfl
      rw [List.foldl_cons, hco]
      -- re-establish the invariant for g3 with done ++ [nb], then use the IH
      have hres := ih (done ++ [nb]) g3
        (fun w hw => hnb w (List.mem_cons_of_mem nb hw)) hnewb hnewlay
        hlen3 hlay3 e3
        (by
          intro L hL
          rw [o3 newId L (Or.inr hL), o2 newId L (Or.inr hL) (Or.inr hL)]
          exact h4 L hL)
        (by
          intro x L hx hL
          rw [o3 x L (Or.inr hL), o2 x L (Or.inr hL) (Or.inr hL)]
          exact h5 x L hx hL)
        (by
          intro x hx u hu
          by_cases hxnb : x = nb.id
          · subst hxnb
            rcases f3sub u hu with h | h
            · exact Or.inl h
            · exact h6 _ hx u h
          · rw [o3 x lc (Or.inl hxnb), o2 x lc (Or.inl hx) (Or.inl hxnb)] at hu
            exact h6 x hx u hu)
        (by
          intro x hx
          by_cases hxnb : x = nb.id
          · subst hxnb
            exact f3len
          · rw [o3 x lc (Or.inl hxnb), o2 x lc (Or.inl hx) (Or.inl hxnb)]
            exact h7 x hx)
      refine ⟨hres.1, hres.2.1, ?_, hres.2.2.2.1, hres.2.2.2.2.1,
        hres.2.2.2.2.2.1, hres.2.2.2.2.2.2⟩
      rw [hres.2.2.1]
      simp

end HNSWIndex

namespace HNSWIndex

theorem connectLayer_inv (cfg : HCfg) (q : Vec) (newId nlay lc : ℕ) (g : HGraph) (curr : ℕ)
    (g' : HGraph) (curr' : ℕ)
    (heq : connectLayer cfg q newId lc (g, curr) = (g', curr'))
    (pre : LayerPre cfg newId nlay lc g curr) :
    g'.nodes.length = newId + 1 ∧
    (∀ x L u, u ∈ nbrsAt g' x L → u ≤ newId ∧ L + 1 ≤ layersOf g' u) ∧
    (∀ x L, (nbrsAt g' x L).length ≤ (if L = 0 then cfg.Mmax else cfg.M)) ∧
    (∀ L, L < lc → newId ∉ layerIds g' L) ∧
    (∀ L, L < lc → nbrsAt g' newId L = []) ∧
    layersOf g' newId = nlay ∧
    curr' < newId ∧
    lc ≤ layersOf g' curr' ∧
    (∀ u, layersOf g' u = layersOf g u) ∧
    g'.entry = g.entry ∧ g'.maxLayer = g.maxLayer ∧ g'.num = g.num ∧ g'.data = g.data := by
  simp only [connectLayer] at heq
  obtain ⟨hg', hcurr'⟩ := Prod.mk.inj heq
  have hcand : ∀ c ∈ search_layer cfg g q curr cfg.efC lc,
      c.id < newId ∧ lc + 1 ≤ layersOf g c.id := by
    obtain ⟨vis', hS⟩ := search_layer_SLI cfg g q curr cfg.efC lc
    intro c hc
    rcases hS.origin c hc with h1 | h1
    · exact h1 ▸ ⟨pre.hcur, pre.hcurLay⟩
    · rcases (mem_layerIds g lc c.id).mp h1 with ⟨x, _, hx⟩
      have h2 := pre.edge x lc c.id hx
      have h3 : c.id ≠ newId := by
        intro hne
        exact pre.absent lc le_rfl (hne ▸ h1)
      exact ⟨lt_of_le_of_ne h2.1 h3, h2.2⟩
  set Mlc := if lc = 0 then cfg.Mmax else cfg.M with hMlc
  set cands := search_layer cfg g q curr cfg.efC lc with hcands
  set nbrs := cands.take Mlc with hnbrs
  have hnbprops : ∀ nb ∈ nbrs, nb.id ≠ newId ∧ nb.id < g.nodes.length ∧ lc < layersOf g nb.id := by
    intro nb hnb
    have h1 := hcand nb ((List.take_sublist _ _).subset hnb)
    refine ⟨Nat.ne_of_lt h1.1, ?_, h1.2⟩
    rw [pre.nlen]
    omega
  have hres := connectFold_inv cfg newId lc Mlc g hMlc nbrs [] g hnbprops
    (by rw [pre.nlen]; omega)
    (by rw [pre.newLay]; exact pre.hlc)
    rfl (fun u => rfl)
    (by rw [pre.newSelf lc le_rfl]; rfl)
    (fun L _ => rfl) (fun x L _ _ => rfl)
    (fun x _ u hu => Or.inr hu)
    (fun x _ => pre.deg x lc)
  have hshape := connectFold_shape cfg newId lc Mlc nbrs g
  obtain ⟨r1, r2, r3, r4, r5, r6, r7⟩ := hres
  have hcurrB : curr' < newId ∧ lc + 1 ≤ layersOf g curr' := by
    rcases hn : nbrs with _ | ⟨nb, rest⟩
    · rw [hn] at hcurr'
      simp only [] at hcurr'
      subst hcurr'
      exact ⟨pre.hcur, pre.hcurLay⟩
    · rw [hn] at hcurr'
      simp only [] at hcurr'
      subst hcurr'
      have hmem : nb ∈ nbrs := by rw [hn]; exact List.mem_cons_self _ _
      exact ⟨(hcand nb ((List.take_sublist _ _).subset hmem)).1,
        (hcand nb ((List.take_sublist _ _).subset hmem)).2⟩
  subst hg'
  have hlayg : ∀ u, layersOf (nbrs.foldl (connectOne cfg newId lc Mlc) g) u = layersOf g u := r2
  refine ⟨r1.trans pre.nlen, ?_, ?_, ?_, ?_, ?_, hcurrB.1, ?_, hlayg,
    hshape.2.2.1, hshape.2.2.2.1, hshape.1, hshape.2.1⟩
  · intro x L u hu
    by_cases hL : L = lc
    · subst hL
      by_cases hx : x = newId
      · subst hx
        rw [r3] at hu
        simp only [List.nil_append] at hu
        rcases List.mem_map.mp hu with ⟨nb, hnb, rfl⟩
        have h1 := hcand nb ((List.take_sublist _ _).subset hnb)
        exact ⟨le_of_lt h1.1, by rw [hlayg]; exact h1.2⟩
      · rcases r6 x hx u hu with rfl | h
        · exact ⟨le_rfl, by rw [hlayg, pre.newLay]; exact pre.hlc⟩
        · have h2 := pre.edge x L u h
          exact ⟨h2.1, by rw [hlayg]; exact h2.2⟩
    · by_cases hx : x = newId
      · subst hx
        rw [r4 L hL] at hu
        have h2 := pre.edge x L u hu
        exact ⟨h2.1, by rw [hlayg]; exact h2.2⟩
      · rw [r5 x L hx hL] at hu
        have h2 := pre.edge x L u hu
        exact ⟨h2.1, by rw [hlayg]; exact h2.2⟩
  · intro x L
    by_cases hL : L = lc
    · subst hL
      by_cases hx : x = newId
      · subst hx
        rw [r3]
        simp only [List.nil_append, List.length_map]
        calc nbrs.length ≤ Mlc := by rw [hnbrs]; simpa using List.length_take_le _ _
          _ = _ := hMlc
      · exact r7 x hx
    · by_cases hx : x = newId
      · subst hx
        rw [r4 L hL]
        exact pre.deg x L
      · rw [r5 x L hx hL]
        exact pre.deg x L
  · intro L hL hmem
    rcases (mem_layerIds _ L newId).mp hmem with ⟨x, hxlen, hx⟩
    by_cases hxn : x = newId
    · subst hxn
      rw [r4 L (by omega)] at hx
      rw [pre.newSelf L (by omega)] at hx
      simp at hx
    · rw [r5 x L hxn (by omega)] at hx
      refine pre.absent L (by omega) ?_
      refine (mem_layerIds g L newId).mpr ⟨x, ?_, hx⟩
      rw [← r1]
      exact hxlen
  · intro L hL
    rw [r4 L (by omega)]
    exact pre.newSelf L (by omega)
  · rw [hlayg]
    exact pre.newLay
  · rw [hlayg]
    have := hcurrB.2
    omega

end HNSWIndex

namespace HNSWIndex

theorem layersLoop_inv (cfg : HCfg) (q : Vec) (newId nlay : ℕ) :
    ∀ (lc : ℕ) (g : HGraph) (curr : ℕ) (st : HGraph × ℕ),
      (downList lc (lc + 1)).foldl (fun st l => connectLayer cfg q newId l st) (g, curr) = st →
      LayerPre cfg newId nlay lc g curr →
      st.1.nodes.length = newId + 1 ∧
      (∀ x L u, u ∈ nbrsAt st.1 x L → u ≤ newId ∧ L + 1 ≤ layersOf st.1 u) ∧
      (∀ x L, (nbrsAt st.1 x L).length ≤ (if L = 0 then cfg.Mmax else cfg.M)) ∧
      (∀ u, layersOf st.1 u = layersOf g u) ∧
      st.1.entry = g.entry ∧ st.1.maxLayer = g.maxLayer ∧ st.1.num = g.num ∧
      st.1.data = g.data := by
  intro lc
  induction lc with
  | zero =>
      intro g curr st hfold pre
      have hstep : connectLayer cfg q newId 0 (g, curr) = st := by
        have : (downList 0 1).foldl (fun st l => connectLayer cfg q newId l st) (g, curr) =
            connectLayer cfg q newId 0 (g, curr) := rfl
        rw [← this]
        exact hfold
      obtain ⟨a1, a2, a3, _, _, _, _, _, a9, a10, a11, a12, a13⟩ :=
        connectLayer_inv cfg q newId nlay 0 g curr st.1 st.2 hstep pre
      exact ⟨a1, a2, a3, a9, a10, a11, a12, a13⟩
  | succ lc ih =>
      intro g curr st hfold pre
      have hfold2 : (downList lc (lc + 1)).foldl (fun st l => connectLayer cfg q newId l st)
          (connectLayer cfg q newId (lc + 1) (g, curr)) = st := hfold
      obtain ⟨a1, a2, a3, a4, a5, a6, a7, a8, a9, a10, a11, a12, a13⟩ :=
        connectLayer_inv cfg q newId nlay (lc + 1) g curr
          (connectLayer cfg q newId (lc + 1) (g, curr)).1
          (connectLayer cfg q newId (lc + 1) (g, curr)).2 rfl pre
      have pre2 : LayerPre cfg newId nlay lc
          (connectLayer cfg q newId (lc + 1) (g, curr)).1
          (connectLayer cfg q newId (lc + 1) (g, curr)).2 :=
        { nlen := a1
          edge := a2
          deg := a3
          absent := fun L hL => a4 L (by omega)
          newSelf := fun L hL => a5 L (by omega)
          newLay := a6
          hlc := by have := pre.hlc; omega
          hcur := a7
          hcurLay := a8 }
      obtain ⟨b1, b2, b3, b4, b5, b6, b7, b8⟩ := ih _ _ st hfold2 pre2
      refine ⟨b1, b2, b3, ?_, ?_, ?_, ?_, ?_⟩
      · intro u
        exact (b4 u).trans (a9 u)
      · exact b5.trans a10
      · exact b6.trans a11
      · exact b7.trans a12
      · exact b8.trans a13

theorem add_core_GInv (cfg : HCfg) (g : HGraph) (lvl : ℕ) (v : Vec)
    (hg : GInv cfg g) : GInv cfg (add_core cfg g lvl v) := by
  by_cases h0 : g.num = 0
  · -- first node: the graph consists of the single fresh node
    have hnil : g.nodes = [] := List.length_eq_zero.mp (by rw [hg.nlen, h0])
    have hcore : add_core cfg g lvl v =
        { data := g.data ++ v,
          nodes := g.nodes ++ [⟨g.num, List.replicate (max lvl g.maxLayer + 1) []⟩],
          num := 1, entry := g.num, maxLayer := lvl } := by
      simp only [add_core, if_pos h0]
    rw [hcore, hnil, h0]
    have hnode : ∀ (x L : ℕ),
        nbrsAt { data := g.data ++ v,
                 nodes := [] ++ [(⟨0, List.replicate (max lvl g.maxLayer + 1) []⟩ : HNode)],
                 num := 1, entry := 0, maxLayer := lvl } x L = [] := by
      intro x L
      cases x with
      | zero =>
          show (List.replicate (max lvl g.maxLayer + 1) []).getD L [] = []
          exact getD_replicate_nil _ L
      | succ x' =>
          apply nbrsAt_oob
          simp
    refine ⟨by simp, ?_, ?_, ?_⟩
    · intro x L u hu
      rw [hnode x L] at hu
      simp at hu
    · intro x L
      rw [hnode x L]
      simp
    · intro _
      refine ⟨Nat.zero_lt_one, ?_⟩
      show lvl + 1 ≤ (List.replicate (max lvl g.maxLayer + 1) ([] : List ℕ)).length
      rw [List.length_replicate]
      omega
  · -- subsequent node
    have hnum : 0 < g.num := Nat.pos_of_ne_zero h0
    set newId := g.num with hnewId
    set nlay := max lvl g.maxLayer + 1 with hnlay
    set g1 : HGraph :=
      { g with data := g.data ++ v,
               nodes := g.nodes ++ [⟨newId, List.replicate nlay []⟩] } with hg1
    have hg1nodes : g1.nodes = g.nodes ++ [⟨newId, List.replicate nlay []⟩] := by rw [hg1]
    have hg1num : g1.num = g.num := by rw [hg1]
    have hg1entry : g1.entry = g.entry := by rw [hg1]
    have hg1ml : g1.maxLayer = g.maxLayer := by rw [hg1]
    have hlen1 : g1.nodes.length = newId + 1 := by
      rw [hg1nodes, List.length_append, hg.nlen]
      rfl
    have hnodeNew : g1.nodes.getD newId noNode = ⟨newId, List.replicate nlay []⟩ := by
      rw [hg1nodes, List.getD_append_right _ _ _ _ (le_of_eq hg.nlen), hg.nlen]
      simp
    have hnbrs1 : ∀ (x L : ℕ), x < newId → nbrsAt g1 x L = nbrsAt g x L := by
      intro x L hx
      unfold nbrsAt
      rw [hg1nodes, List.getD_append _ _ _ _ (by rw [hg.nlen]; omega)]
    have hnew1 : ∀ L : ℕ, nbrsAt g1 newId L = [] := by
      intro L
      unfold nbrsAt
      rw [hnodeNew]
      exact getD_replicate_nil _ L
    have hoob1 : ∀ (x L : ℕ), newId < x → nbrsAt g1 x L = [] := by
      intro x L hx
      apply nbrsAt_oob
      rw [hlen1]
      omega
    have hlay1old : ∀ u, u < newId → layersOf g1 u = layersOf g u := by
      intro u hu
      unfold layersOf
      rw [hg1nodes, List.getD_append _ _ _ _ (by rw [hg.nlen]; omega)]
    have hlay1new : layersOf g1 newId = nlay := by
      unfold layersOf
      rw [hnodeNew]
      exact List.length_replicate _ _
    have hedge1 : ∀ x L u, u ∈ nbrsAt g1 x L → u < newId ∧ L + 1 ≤ layersOf g1 u := by
      intro x L u hu
      rcases Nat.lt_trichotomy x newId with hx | hx | hx
      · rw [hnbrs1 x L hx] at hu
        have h2 := hg.edge x L u hu
        refine ⟨h2.1, ?_⟩
        rw [hlay1old u h2.1]
        exact h2.2
      · subst hx
        rw [hnew1 L] at hu
        simp at hu
      · rw [hoob1 x L hx] at hu
        simp at hu
    have hdeg1 : ∀ x L, (nbrsAt g1 x L).length ≤ (if L = 0 then cfg.Mmax else cfg.M) := by
      intro x L
      rcases Nat.lt_trichotomy x newId with hx | hx | hx
      · rw [hnbrs1 x L hx]
        exact hg.deg x L
      · subst hx
        rw [hnew1 L]
        simp
      · rw [hoob1 x L hx]
        simp
    have hent := hg.ent hnum
    have hdsc := descend_bound cfg g1 v newId hedge1 (g1.maxLayer - lvl) g1.maxLayer g1.entry
      (by rw [hg1entry]; exact hent.1)
      (by
        rw [hg1entry, hg1ml, hlay1old g.entry hent.1]
        exact hent.2)
    have hpre : LayerPre cfg newId nlay (min lvl g1.maxLayer)
        g1 (descend cfg g1 v g1.entry (downList g1.maxLayer (g1.maxLayer - lvl))) := by
      refine ⟨hlen1, ?_, hdeg1, ?_, ?_, hlay1new, ?_, hdsc.1, ?_⟩
      · intro x L u hu
        have h2 := hedge1 x L u hu
        exact ⟨le_of_lt h2.1, h2.2⟩
      · intro L _ hmem
        rcases (mem_layerIds g1 L newId).mp hmem with ⟨x, hxlen, hx⟩
        have h2 := (hedge1 x L newId hx).1
        omega
      · intro L _
        exact hnew1 L
      · rw [hnlay, hg1ml]
        omega
      · have h2 := hdsc.2
        omega
    obtain ⟨b1, b2, b3, b4, b5, b6, b7, b8⟩ :=
      layersLoop_inv cfg v newId nlay (min lvl g1.maxLayer) g1
        (descend cfg g1 v g1.entry (downList g1.maxLayer (g1.maxLayer - lvl)))
        ((downList (min lvl g1.maxLayer) (min lvl g1.maxLayer + 1)).foldl
          (fun st l => connectLayer cfg v newId l st)
          (g1, descend cfg g1 v g1.entry (downList g1.maxLayer (g1.maxLayer - lvl))))
        rfl hpre
    have hcore : add_core cfg g lvl v =
        (fun st3 : HGraph =>
          { (if g1.maxLayer < lvl then { st3 with entry := newId, maxLayer := lvl } else st3) with
            num := (if g1.maxLayer < lvl then { st3 with entry := newId, maxLayer := lvl }
              else st3).num + 1 })
        ((downList (min lvl g1.maxLayer) (min lvl g1.maxLayer + 1)).foldl
          (fun st l => connectLayer cfg v newId l st)
          (g1, descend cfg g1 v g1.entry (downList g1.maxLayer (g1.maxLayer - lvl)))).1 := by
      simp only [add_core, if_neg h0]
    rw [hcore]
    set st3 := ((downList (min lvl g1.maxLayer) (min lvl g1.maxLayer + 1)).foldl
      (fun st l => connectLayer cfg v newId l st)
      (g1, descend cfg g1 v g1.entry (downList g1.maxLayer (g1.maxLayer - lvl)))).1 with hst3
    have hnum3 : st3.num = g.num := b7.trans hg1num
    by_cases hprom : g1.maxLayer < lvl
    · simp only [if_pos hprom]
      refine ⟨?_, ?_, b3, ?_⟩
      · show st3.nodes.length = st3.num + 1
        rw [b1, hnum3]
      · intro x L u hu
        have h2 := b2 x L u hu
        refine ⟨?_, h2.2⟩
        show u < st3.num + 1
        rw [hnum3]
        omega
      · intro _
        refine ⟨?_, ?_⟩
        · show newId < st3.num + 1
          rw [hnum3]
          omega
        · show lvl + 1 ≤ layersOf st3 newId
          rw [b4 newId, hlay1new, hnlay]
          omega
    · simp only [if_neg hprom]
      refine ⟨?_, ?_, b3, ?_⟩
      · show st3.nodes.length = st3.num + 1
        rw [b1, hnum3]
      · intro x L u hu
        have h2 := b2 x L u hu
        refine ⟨?_, h2.2⟩
        show u < st3.num + 1
        rw [hnum3]
        omega
      · intro _
        refine ⟨?_, ?_⟩
        · show st3.entry < st3.num + 1
          rw [b5, hg1entry, hnum3]
          omega
        · show st3.maxLayer + 1 ≤ layersOf st3 st3.entry
          rw [b5, b6, b4, hg1entry, hg1ml, hlay1old g.entry hent.1]
          exact hent.2

end HNSWIndex

namespace HNSWIndex

theorem GInv_empty (cfg : HCfg) : GInv cfg ⟨[], [], 0, 0, 0⟩ := by
  refine ⟨rfl, ?_, ?_, ?_⟩
  · intro x L u hu
    rw [nbrsAt_oob _ x L (by simp)] at hu
    simp at hu
  · intro x L
    rw [nbrsAt_oob _ x L (by simp)]
    simp
  · intro h
    simp at h

theorem add_batch_cfg : ∀ (vs : List Vec) (s : HState), (add_batch s vs).1.cfg = s.cfg := by
  intro vs
  induction vs with
  | nil => intro s; rfl
  | cons v rest ih =>
      intro s
      by_cases hd : v.length = s.cfg.dim
      · have hne : ¬ v.length ≠ s.cfg.dim := fun hh => hh hd
        rw [add_batch, add, if_neg hne]
        exact ih { s with g := add_core s.cfg s.g (s.levels s.rngPos) v, rngPos := s.rngPos + 1 }
      · rw [add_batch, add, if_pos hd]

theorem add_batch_GInv : ∀ (vs : List Vec) (s : HState),
    GInv s.cfg s.g → GInv s.cfg (add_batch s vs).1.g := by
  intro vs
  induction vs with
  | nil => intro s h; exact h
  | cons v rest ih =>
      intro s h
      by_cases hd : v.length = s.cfg.dim
      · have hne : ¬ v.length ≠ s.cfg.dim := fun hh => hh hd
        rw [add_batch, add, if_neg hne]
        exact ih { s with g := add_core s.cfg s.g (s.levels s.rngPos) v, rngPos := s.rngPos + 1 }
          (add_core_GInv s.cfg s.g (s.levels s.rngPos) v h)
      · rw [add_batch, add, if_pos hd]
        exact h

theorem runOp_GInv (s : HState) (op : HOp) (h : GInv s.cfg s.g) :
    GInv (runOp s op).cfg (runOp s op).g := by
  cases op with
  | add v =>
      by_cases hd : v.length = s.cfg.dim
      · rw [runOp_add_ok hd]
        exact add_core_GInv s.cfg s.g (s.levels s.rngPos) v h
      · rw [runOp_add_err hd]
        exact h
  | addBatch vs =>
      show GInv (add_batch s vs).1.cfg (add_batch s vs).1.g
      rw [add_batch_cfg vs s]
      exact add_batch_GInv vs s h
  | search q k => exact h
  | setEf e => exact h
  | clear => exact GInv_empty s.cfg

theorem runOps_GInv (ops : List HOp) (s : HState) (h : GInv s.cfg s.g) :
    GInv (runOps s ops).cfg (runOps s ops).g := by
  induction ops generalizing s with
  | nil => exact h
  | cons op rest ih => exact ih (runOp s op) (runOp_GInv s op h)

theorem runOps_cfg (ops : List HOp) (s : HState) : (runOps s ops).cfg = s.cfg := by
  induction ops generalizing s with
  | nil => rfl
  | cons op rest ih =>
      show (runOps (runOp s op) rest).cfg = s.cfg
      rw [ih]
      cases op with
      | add v =>
          by_cases hd : v.length = s.cfg.dim
          · rw [runOp_add_ok hd]
          · rw [runOp_add_err hd]
      | addBatch vs => exact add_batch_cfg vs s
      | search q k => rfl
      | setEf e => rfl
      | clear => rfl

end HNSWIndex

/-- C8: in every state reachable by public calls on an `HNSWIndex`
constructed with parameter `M`, every node's neighbour list at layer 0 has
at most `M_max0 = 2·M` entries and at every layer `L ≥ 1` at most `M`
entries; in particular this holds immediately after every insertion. -/
theorem C8_degree_bounds (dim maxEl M efc : ℕ) (levels : ℕ → ℕ) (ops : List HNSWIndex.HOp) :
    ∀ nd ∈ (HNSWIndex.runOps (HNSWIndex.hnswNew dim maxEl M efc levels) ops).g.nodes,
      ∀ L : ℕ,
        (L = 0 → (nd.neighbors.getD L []).length ≤ 2 * M) ∧
        (1 ≤ L → (nd.neighbors.getD L []).length ≤ M) := by
  set s := HNSWIndex.runOps (HNSWIndex.hnswNew dim maxEl M efc levels) ops with hs
  have hcfg : s.cfg = ⟨dim, maxEl, M, M * 2, efc⟩ :=
    HNSWIndex.runOps_cfg ops (HNSWIndex.hnswNew dim maxEl M efc levels)
  have hinv := HNSWIndex.runOps_GInv ops (HNSWIndex.hnswNew dim maxEl M efc levels)
    (HNSWIndex.GInv_empty _)
  rw [← hs] at hinv
  intro nd hnd L
  rcases List.getElem_of_mem hnd with ⟨i, hi, hget⟩
  have hnb : HNSWIndex.nbrsAt s.g i L = nd.neighbors.getD L [] := by
    unfold HNSWIndex.nbrsAt
    rw [List.getD_eq_getElem _ _ hi, hget]
  have hdeg := hinv.deg i L
  rw [hnb, hcfg] at hdeg
  constructor
  · intro hL
    subst hL
    simpa [Nat.mul_comm] using hdeg
  · intro hL
    have : ¬ L = 0 := by omega
    simpa [this] using hdeg

/-- C10: in every reachable HNSW state, every id `u` stored in any node's
layer-`L` neighbour list names a valid node whose per-layer vector has
length at least `L + 1`, so the accesses `neighbors[c][layer]` performed by
`search_layer` and by insertion stay in bounds. -/
theorem C10_neighbor_layers_in_bounds (dim maxEl M efc : ℕ) (levels : ℕ → ℕ)
    (ops : List HNSWIndex.HOp) :
    ∀ nd ∈ (HNSWIndex.runOps (HNSWIndex.hnswNew dim maxEl M efc levels) ops).g.nodes,
      ∀ (L u : ℕ), u ∈ nd.neighbors.getD L [] →
        u < (HNSWIndex.runOps (HNSWIndex.hnswNew dim maxEl M efc levels) ops).g.nodes.length ∧
        L + 1 ≤ ((HNSWIndex.runOps (HNSWIndex.hnswNew dim maxEl M efc levels)
          ops).g.nodes.getD u HNSWIndex.noNode).neighbors.length := by
  set s := HNSWIndex.runOps (HNSWIndex.hnswNew dim maxEl M efc levels) ops with hs
  have hinv := HNSWIndex.runOps_GInv ops (HNSWIndex.hnswNew dim maxEl M efc levels)
    (HNSWIndex.GInv_empty _)
  rw [← hs] at hinv
  intro nd hnd L u hu
  rcases List.getElem_of_mem hnd with ⟨i, hi, hget⟩
  have hnb : HNSWIndex.nbrsAt s.g i L = nd.neighbors.getD L [] := by
    unfold HNSWIndex.nbrsAt
    rw [List.getD_eq_getElem _ _ hi, hget]
  have hedge := hinv.edge i L u (by rw [hnb]; exact hu)
  exact ⟨by rw [hinv.nlen]; exact hedge.1, hedge.2⟩

theorem flatten_length (dim : ℕ) : ∀ (vss : List Vec),
    (∀ v ∈ vss, v.length = dim) → vss.flatten.length = vss.length * dim := by
  intro vss
  induction vss with
  | nil => intro _; simp
  | cons v rest ih =>
      intro h
      rw [List.flatten_cons, List.length_append, ih (fun w hw => h w (List.mem_cons_of_mem v hw)),
        h v (List.mem_cons_self v rest), List.length_cons]
      ring

theorem flatten_slice (dim : ℕ) : ∀ (vss : List Vec), (∀ v ∈ vss, v.length = dim) →
    ∀ i, i < vss.length → (vss.flatten.drop (i * dim)).take dim = vss.getD i [] := by
  intro vss
  induction vss with
  | nil => intro _ i hi; simp at hi
  | cons v rest ih =>
      intro h i hi
      cases i with
      | zero =>
          rw [List.flatten_cons]
          simp only [Nat.zero_mul, List.drop_zero, List.getD_cons_zero]
          rw [List.take_append_of_le_length (le_of_eq (h v (List.mem_cons_self v rest)).symm)]
          rw [List.take_of_length_le (le_of_eq (h v (List.mem_cons_self v rest)))]
      | succ j =>
          rw [List.flatten_cons, List.getD_cons_succ]
          have hlen : v.length = dim := h v (List.mem_cons_self v rest)
          have : (j + 1) * dim = v.length + j * dim := by rw [hlen]; ring
          rw [this, List.drop_append]
          exact ih (fun w hw => h w (List.mem_cons_of_mem v hw)) j (by simpa using hi)

namespace VectorBatchInserter

theorem runOps_arena_bf (dim : ℕ) : ∀ (ops : List BOp) (s : BState), s.dim = dim →
    (∃ vss : List Vec, (∀ v ∈ vss, v.length = dim) ∧
      s.data = vss.flatten ∧ s.num = vss.length) →
    (runOps s ops).dim = dim ∧
    ∃ vss : List Vec, (∀ v ∈ vss, v.length = dim) ∧
      (runOps s ops).data = vss.flatten ∧ (runOps s ops).num = vss.length := by
  intro ops
  induction ops with
  | nil => intro s hdim h; exact ⟨hdim, h⟩
  | cons op rest ih =>
      intro s hdim h
      obtain ⟨vss, hv, hdata, hnum⟩ := h
      show (runOps (runOp s op) rest).dim = dim ∧
        ∃ vss : List Vec, (∀ v ∈ vss, v.length = dim) ∧
          (runOps (runOp s op) rest).data = vss.flatten ∧
          (runOps (runOp s op) rest).num = vss.length
      cases op with
      | add v =>
          by_cases hd : v.length = s.dim
          · have : runOp s (.add v) = ⟨s.dim, s.num + 1, s.data ++ v⟩ := by
              simp [runOp, add, hd]
            rw [this]
            refine ih _ hdim ⟨vss ++ [v], ?_, ?_, ?_⟩
            · intro w hw
              rcases List.mem_append.mp hw with hw | hw
              · exact hv w hw
              · rw [List.mem_singleton.mp hw, hd, hdim]
            · simp [hdata]
            · simp [hnum]
          · have : runOp s (.add v) = s := by simp [runOp, add, hd]
            rw [this]
            exact ih _ hdim ⟨vss, hv, hdata, hnum⟩
      | addBatch vs =>
          by_cases hd : vs.any (fun v => v.length ≠ s.dim)
          · have : runOp s (.addBatch vs) = s := by
              show (add_batch s vs).1 = s
              unfold add_batch
              rw [if_pos hd]
            rw [this]
            exact ih _ hdim ⟨vss, hv, hdata, hnum⟩
          · have : runOp s (.addBatch vs) = ⟨s.dim, s.num + vs.length, s.data ++ vs.flatten⟩ := by
              simp only [runOp, add_batch, if_neg hd]
            rw [this]
            refine ih _ hdim ⟨vss ++ vs, ?_, ?_, ?_⟩
            · intro w hw
              rcases List.mem_append.mp hw with hw | hw
              · exact hv w hw
              · have h2 : ¬ (w.length ≠ s.dim) := by
                  intro hne
                  exact hd (List.any_eq_true.mpr ⟨w, hw, by simpa using hne⟩)
                rw [not_not.mp h2, hdim]
            · simp [hdata]
            · simp [hnum]
      | search q k => exact ih _ hdim ⟨vss, hv, hdata, hnum⟩
      | clear => exact ih _ hdim ⟨[], by simp, rfl, rfl⟩

end VectorBatchInserter

namespace HNSWIndex

theorem runOps_arena_hnsw (dim : ℕ) : ∀ (ops : List HOp) (s : HState), s.cfg.dim = dim →
    (∃ vss : List Vec, (∀ v ∈ vss, v.length = dim) ∧
      s.g.data = vss.flatten ∧ s.g.num = vss.length) →
    ∃ vss : List Vec, (∀ v ∈ vss, v.length = dim) ∧
      (runOps s ops).g.data = vss.flatten ∧ (runOps s ops).g.num = vss.length := by
  intro ops
  induction ops with
  | nil => intro s hdim h; exact h
  | cons op rest ih =>
      intro s hdim h
      have hdim' : (runOp s op).cfg.dim = dim := by
        have : (runOp s op).cfg = s.cfg := by
          cases op with
          | add v =>
              by_cases hd : v.length = s.cfg.dim
              · rw [runOp_add_ok hd]
              · rw [runOp_add_err hd]
          | addBatch vs => exact add_batch_cfg vs s
          | search q k => rfl
          | setEf e => rfl
          | clear => rfl
        rw [this, hdim]
      show ∃ vss, _ ∧ (runOps (runOp s op) rest).g.data = _ ∧ _
      refine ih (runOp s op) hdim' ?_
      obtain ⟨vss, hv, hdata, hnum⟩ := h
      cases op with
      | add v =>
          by_cases hd : v.length = s.cfg.dim
          · rw [runOp_add_ok hd]
            refine ⟨vss ++ [v], ?_, ?_, ?_⟩
            · intro w hw
              rcases List.mem_append.mp hw with hw | hw
              · exact hv w hw
              · rw [List.mem_singleton.mp hw, hd, hdim]
            · show (add_core s.cfg s.g (s.levels s.rngPos) v).data = _
              rw [add_core_data, hdata]
              simp
            · show (add_core s.cfg s.g (s.levels s.rngPos) v).num = _
              rw [add_core_num, hnum]
              simp
          · rw [runOp_add_err hd]
            exact ⟨vss, hv, hdata, hnum⟩
      | addBatch vs =>
          show ∃ wss : List Vec, (∀ v ∈ wss, v.length = dim) ∧
            (add_batch s vs).1.g.data = wss.flatten ∧ (add_batch s vs).1.g.num = wss.length
          clear hdim'
          induction vs generalizing s vss with
          | nil => exact ⟨vss, hv, hdata, hnum⟩
          | cons w rest2 ih2 =>
              by_cases hd : w.length = s.cfg.dim
              · have hne : ¬ w.length ≠ s.cfg.dim := fun hh => hh hd
                rw [add_batch, add, if_neg hne]
                refine ih2 { s with g := add_core s.cfg s.g (s.levels s.rngPos) w,
                                    rngPos := s.rngPos + 1 } hdim (vss ++ [w]) ?_ ?_ ?_
                · intro x hx
                  rcases List.mem_append.mp hx with hx | hx
                  · exact hv x hx
                  · rw [List.mem_singleton.mp hx, hd, hdim]
                · show (add_core s.cfg s.g (s.levels s.rngPos) w).data = _
                  rw [add_core_data, hdata]
                  simp
                · show (add_core s.cfg s.g (s.levels s.rngPos) w).num = _
                  rw [add_core_num, hnum]
                  simp
              · rw [add_batch, add, if_pos hd]
                exact ⟨vss, hv, hdata, hnum⟩
      | search q k => exact ⟨vss, hv, hdata, hnum⟩
      | setEf e => exact ⟨vss, hv, hdata, hnum⟩
      | clear => exact ⟨[], by simp, rfl, rfl⟩

end HNSWIndex

/-- C6: in every state reachable by public calls on either index, the flat
data buffer is the concatenation of the accepted vectors (each of length
`dim`), so its length is exactly `len() · dim` and vector `i` occupies
positions `[i·dim, (i+1)·dim)`. -/
theorem C6_arena_layout :
    (∀ (dim : ℕ) (ops : List VectorBatchInserter.BOp),
      ∃ vss : List Vec, (∀ v ∈ vss, v.length = dim) ∧
        (VectorBatchInserter.runOps (VectorBatchInserter.bfNew dim) ops).data = vss.flatten ∧
        (VectorBatchInserter.runOps (VectorBatchInserter.bfNew dim) ops).num = vss.length ∧
        (VectorBatchInserter.runOps (VectorBatchInserter.bfNew dim) ops).data.length =
          (VectorBatchInserter.runOps (VectorBatchInserter.bfNew dim) ops).num * dim ∧
        (∀ i, i < (VectorBatchInserter.runOps (VectorBatchInserter.bfNew dim) ops).num →
          (((VectorBatchInserter.runOps (VectorBatchInserter.bfNew dim) ops).data.drop
            (i * dim)).take dim) = vss.getD i [])) ∧
    (∀ (dim maxEl M efc : ℕ) (levels : ℕ → ℕ) (ops : List HNSWIndex.HOp),
      ∃ vss : List Vec, (∀ v ∈ vss, v.length = dim) ∧
        (HNSWIndex.runOps (HNSWIndex.hnswNew dim maxEl M efc levels) ops).g.data =
          vss.flatten ∧
        (HNSWIndex.runOps (HNSWIndex.hnswNew dim maxEl M efc levels) ops).g.num =
          vss.length ∧
        (HNSWIndex.runOps (HNSWIndex.hnswNew dim maxEl M efc levels) ops).g.data.length =
          (HNSWIndex.runOps (HNSWIndex.hnswNew dim maxEl M efc levels) ops).g.num * dim ∧
        (∀ i, i < (HNSWIndex.runOps (HNSWIndex.hnswNew dim maxEl M efc levels) ops).g.num →
          (((HNSWIndex.runOps (HNSWIndex.hnswNew dim maxEl M efc levels) ops).g.data.drop
            (i * dim)).take dim) = vss.getD i [])) := by
  constructor
  · intro dim ops
    obtain ⟨_, vss, hv, hdata, hnum⟩ :=
      VectorBatchInserter.runOps_arena_bf dim ops (VectorBatchInserter.bfNew dim) rfl
        ⟨[], by simp, rfl, rfl⟩
    refine ⟨vss, hv, hdata, hnum, ?_, ?_⟩
    · rw [hdata, hnum, flatten_length dim vss hv]
    · intro i hi
      rw [hdata]
      exact flatten_slice dim vss hv i (by rw [← hnum]; exact hi)
  · intro dim maxEl M efc levels ops
    obtain ⟨vss, hv, hdata, hnum⟩ :=
      HNSWIndex.runOps_arena_hnsw dim ops (HNSWIndex.hnswNew dim maxEl M efc levels) rfl
        ⟨[], by simp, rfl, rfl⟩
    refine ⟨vss, hv, hdata, hnum, ?_, ?_⟩
    · rw [hdata, hnum, flatten_length dim vss hv]
    · intro i hi
      rw [hdata]
      exact flatten_slice dim vss hv i (by rw [← hnum]; exact hi)

theorem C1_witness :
    ([(0 : ℚ)].length = (⟨1, 1, [2]⟩ : VectorBatchInserter.BState).dim) ∧ 1 ≤ 1 ∧
    ∃ r, VectorBatchInserter.search ⟨1, 1, [2]⟩ [0] 1 = .ok r ∧ r.length = 1 :=
  ⟨rfl, le_refl 1, by
    obtain ⟨r, h1, h2, _, _, _⟩ :=
      C1_bruteforce_search_exact ⟨1, 1, [2]⟩ [0] 1 rfl (le_refl 1)
    exact ⟨r, h1, by simpa using h2⟩⟩

theorem C2_witness :
    (∀ v ∈ ([[1]] : List Vec), List.length v = HNSWIndex.cxNew.cfg.dim) ∧
    (List.length [(1 : ℚ), 2] ≠ HNSWIndex.cxNew.cfg.dim) ∧
    (HNSWIndex.add_batch HNSWIndex.cxNew ([[1]] ++ [1, 2] :: []) =
      (HNSWIndex.addSeq HNSWIndex.cxNew [[1]], true) ∧
     (HNSWIndex.addSeq HNSWIndex.cxNew [[1]]).g.num =
       HNSWIndex.cxNew.g.num + ([[1]] : List Vec).length) :=
  ⟨by decide, by decide,
    C2_batch_validation_amended.2 HNSWIndex.cxNew [[1]] [1, 2] [] (by decide) (by decide)⟩

theorem C3_witness :
    (HNSWIndex.cxNew2.cfg.Mmax = 2 * HNSWIndex.cxNew2.cfg.M) ∧
    ((HNSWIndex.clear HNSWIndex.cxNew2).rngPos = HNSWIndex.cxNew2.rngPos ∧
     (HNSWIndex.clear HNSWIndex.cxNew2).g = ⟨[], [], 0, 0, 0⟩ ∧
     (HNSWIndex.addSeq (HNSWIndex.clear HNSWIndex.cxNew2) [[0]]).g =
       (HNSWIndex.addSeq (HNSWIndex.hnswNew HNSWIndex.cxNew2.cfg.dim
         HNSWIndex.cxNew2.cfg.maxElements HNSWIndex.cxNew2.cfg.M HNSWIndex.cxNew2.cfg.efC
         (fun n => HNSWIndex.cxNew2.levels (n + HNSWIndex.cxNew2.rngPos))) [[0]]).g) :=
  ⟨by decide, C3_clear_rebuild_amended HNSWIndex.cxNew2 [[0]] (by decide)⟩

theorem C5_witness :
    ([(4 : ℚ)].length = HNSWIndex.cxState.cfg.dim) ∧ HNSWIndex.cxState.g.num ≠ 0 ∧
    ∃ r, HNSWIndex.search HNSWIndex.cxState [4] 4 = .ok r ∧
      r.length ≤ min 4 HNSWIndex.cxState.g.num :=
  ⟨by decide, by decide, by
    obtain ⟨r, hA, _, _, hD, _, _⟩ :=
      C5_search_truncation_amended HNSWIndex.cxState [4] 4 (by decide) (by decide)
    exact ⟨r, hA, hD⟩⟩

theorem C6_witness :
    ∃ vss : List Vec, (∀ v ∈ vss, v.length = 1) ∧
      (VectorBatchInserter.runOps (VectorBatchInserter.bfNew 1) [.add [7]]).data =
        vss.flatten ∧
      (VectorBatchInserter.runOps (VectorBatchInserter.bfNew 1) [.add [7]]).num =
        vss.length := by
  obtain ⟨vss, h1, h2, h3, _, _⟩ := C6_arena_layout.1 1 [.add [7]]
  exact ⟨vss, h1, h2, h3⟩

theorem C7_witness :
    1 ≤ 1 ∧ 0 < HNSWIndex.cxState.g.nodes.length ∧
    ((HNSWIndex.search_layer HNSWIndex.cxState.cfg HNSWIndex.cxState.g [4] 0 1 0).Pairwise
      (fun a b => a.dist ≤ b.dist) ∧
     (HNSWIndex.search_layer HNSWIndex.cxState.cfg HNSWIndex.cxState.g [4] 0 1 0).length ≤ 1) :=
  ⟨le_refl 1, by decide, by
    obtain ⟨h1, h2, _, _, _⟩ := C7_search_layer_contract HNSWIndex.cxState.cfg
      HNSWIndex.cxState.g [4] 0 1 0 (le_refl 1) (by decide)
    exact ⟨h1, h2⟩⟩

theorem C8_witness :
    ((⟨0, [[]]⟩ : HNSWIndex.HNode) ∈
      (HNSWIndex.runOps (HNSWIndex.hnswNew 1 10 1 2 HNSWIndex.cxLevels0) [.add [5]]).g.nodes) ∧
    ((0 = 0 → (([[]] : List (List ℕ)).getD 0 []).length ≤ 2 * 1) ∧
     (1 ≤ 0 → (([[]] : List (List ℕ)).getD 0 []).length ≤ 1)) :=
  ⟨by decide,
    C8_degree_bounds 1 10 1 2 HNSWIndex.cxLevels0 [.add [5]] ⟨0, [[]]⟩ (by decide) 0⟩

theorem C9_witness :
    (List.length [(1 : ℚ), 2] ≠ (VectorBatchInserter.bfNew 1).dim) ∧
    VectorBatchInserter.add (VectorBatchInserter.bfNew 1) [1, 2] = .error () :=
  ⟨by decide,
    (C9_dimension_mismatch_iff.1 (VectorBatchInserter.bfNew 1) [1, 2]).mpr (by decide)⟩

theorem C10_witness :
    ((⟨0, [[3, 1]]⟩ : HNSWIndex.HNode) ∈
      (HNSWIndex.runOps (HNSWIndex.hnswNew 1 10 1 200 HNSWIndex.cxLevels0)
        [.add [0], .add [10], .add [1000], .add [4]]).g.nodes) ∧
    ((3 : ℕ) ∈ ([[3, 1]] : List (List ℕ)).getD 0 []) ∧
    (3 < (HNSWIndex.runOps (HNSWIndex.hnswNew 1 10 1 200 HNSWIndex.cxLevels0)
        [.add [0], .add [10], .add [1000], .add [4]]).g.nodes.length ∧
     0 + 1 ≤ ((HNSWIndex.runOps (HNSWIndex.hnswNew 1 10 1 200 HNSWIndex.cxLevels0)
        [.add [0], .add [10], .add [1000], .add [4]]).g.nodes.getD 3
          HNSWIndex.noNode).neighbors.length) :=
  ⟨by decide, by decide,
    C10_neighbor_layers_in_bounds 1 10 1 200 HNSWIndex.cxLevels0
      [.add [0], .add [10], .add [1000], .add [4]] ⟨0, [[3, 1]]⟩ (by decide) 0 3 (by decide)⟩

namespace HNSWIndex

theorem mem_allNbrIds (g : HGraph) (u L n : ℕ) (h : n ∈ nbrsAt g u L) :
    n ∈ allNbrIds g := by
  unfold allNbrIds
  rw [List.mem_toFinset]
  rcases lt_or_ge u g.nodes.length with hu | hu
  · refine List.mem_flatten.mpr ⟨(g.nodes.getD u noNode).neighbors.flatten, ?_, ?_⟩
    · refine List.mem_map.mpr ⟨g.nodes.getD u noNode, ?_, rfl⟩
      rw [List.getD_eq_getElem _ _ hu]
      exact List.getElem_mem hu
    · unfold nbrsAt at h
      rcases lt_or_ge L (g.nodes.getD u noNode).neighbors.length with hL | hL
      · refine List.mem_flatten.mpr ⟨(g.nodes.getD u noNode).neighbors.getD L [], ?_, h⟩
        rw [List.getD_eq_getElem _ _ hL]
        exact List.getElem_mem hL
      · rw [List.getD_eq_default _ _ hL] at h
        simp at h
  · rw [nbrsAt_oob g u L hu] at h
    simp at h

theorem card_allNbrIds_le (g : HGraph) : (allNbrIds g).card ≤ nbrTotal g := by
  unfold allNbrIds nbrTotal
  refine le_trans (List.toFinset_card_le _) ?_
  rw [List.length_flatten]
  rw [List.map_map]
  apply le_of_eq
  congr 1
  apply List.map_congr_left
  intro nd _
  show (nd.neighbors.flatten).length = (nd.neighbors.map List.length).sum
  rw [List.length_flatten]

theorem scanStep_measure (cfg : HCfg) (g : HGraph) (q : Vec) (ef : ℕ)
    (C W : List Cand) (vis : List ℕ) (n : ℕ) (hn : n ∈ allNbrIds g) :
    ((scanStep cfg g q ef (C, W, vis) n).1.length +
      2 * (allNbrIds g \ (scanStep cfg g q ef (C, W, vis) n).2.2.toFinset).card) ≤
    C.length + 2 * (allNbrIds g \ vis.toFinset).card := by
  unfold scanStep
  by_cases hv : n ∈ vis
  · simp [hv]
  · simp only [if_neg hv]
    have hcard : (allNbrIds g \ (n :: vis).toFinset).card + 1 =
        (allNbrIds g \ vis.toFinset).card := by
      rw [List.toFinset_cons]
      rw [Finset.sdiff_insert]
      rw [Finset.card_erase_of_mem]
      · have hpos : 0 < (allNbrIds g \ vis.toFinset).card := by
          refine Finset.card_pos.mpr ⟨n, ?_⟩
          rw [Finset.mem_sdiff, List.mem_toFinset]
          exact ⟨hn, hv⟩
        omega
      · rw [Finset.mem_sdiff, List.mem_toFinset]
        exact ⟨hn, hv⟩
    by_cases hp : dQ cfg g q n < (wTop W).dist ∨ W.length < ef
    · simp only [if_pos hp]
      show (cPush ⟨n, dQ cfg g q n⟩ C).length + 2 * (allNbrIds g \ (n :: vis).toFinset).card ≤ _
      rw [show (cPush ⟨n, dQ cfg g q n⟩ C).length = C.length + 1 from length_insertByKey _ _ _]
      omega
    · simp only [if_neg hp]
      show C.length + 2 * (allNbrIds g \ (n :: vis).toFinset).card ≤ _
      omega

theorem scanFold_measure (cfg : HCfg) (g : HGraph) (q : Vec) (ef : ℕ) :
    ∀ (ns : List ℕ) (C W : List Cand) (vis : List ℕ),
      (∀ n ∈ ns, n ∈ allNbrIds g) →
      ((ns.foldl (scanStep cfg g q ef) (C, W, vis)).1.length +
        2 * (allNbrIds g \ (ns.foldl (scanStep cfg g q ef) (C, W, vis)).2.2.toFinset).card) ≤
      C.length + 2 * (allNbrIds g \ vis.toFinset).card := by
  intro ns
  induction ns with
  | nil => intro C W vis _; exact le_refl _
  | cons n rest ih =>
      intro C W vis hns
      rw [List.foldl_cons]
      have heq : scanStep cfg g q ef (C, W, vis) n =
          ((scanStep cfg g q ef (C, W, vis) n).1,
           (scanStep cfg g q ef (C, W, vis) n).2.1,
           (scanStep cfg g q ef (C, W, vis) n).2.2) := rfl
      rw [heq]
      refine le_trans (ih _ _ _ (fun m hm => hns m (List.mem_cons_of_mem n hm))) ?_
      exact scanStep_measure cfg g q ef C W vis n (hns n (List.mem_cons_self n rest))

theorem slLoop_stable (cfg : HCfg) (g : HGraph) (q : Vec) (ef layer : ℕ) :
    ∀ (f : ℕ) (C W : List Cand) (vis : List ℕ), slMeasure g C vis < f →
      slLoop cfg g q ef layer f C W vis = slLoop cfg g q ef layer (f + 1) C W vis := by
  intro f
  induction f with
  | zero => intro C W vis h; simp [slMeasure] at h
  | succ f ih =>
      intro C W vis h
      cases C with
      | nil => rfl
      | cons c C' =>
          by_cases hb : (wTop W).dist < c.dist
          · rw [slLoop, slLoop, if_pos hb, if_pos hb]
          · rw [slLoop, if_neg hb]
            rw [show slLoop cfg g q ef layer (f + 1 + 1) (c :: C') W vis =
              (if (wTop W).dist < c.dist then W
               else
                 let a := (nbrsAt g c.id layer).foldl (scanStep cfg g q ef) (C', W, vis)
                 slLoop cfg g q ef layer (f + 1) a.1 a.2.1 a.2.2) from rfl]
            rw [if_neg hb]
            show slLoop cfg g q ef layer f _ _ _ = slLoop cfg g q ef layer (f + 1) _ _ _
            apply ih
            have hfold := scanFold_measure cfg g q ef (nbrsAt g c.id layer) C' W vis
              (fun n hn => mem_allNbrIds g c.id layer n hn)
            unfold slMeasure at h ⊢
            simp only [List.length_cons] at h
            omega

theorem slLoop_ge_stable (cfg : HCfg) (g : HGraph) (q : Vec) (ef layer : ℕ)
    (C W : List Cand) (vis : List ℕ) :
    ∀ (f1 f2 : ℕ), slMeasure g C vis < f1 → f1 ≤ f2 →
      slLoop cfg g q ef layer f1 C W vis = slLoop cfg g q ef layer f2 C W vis := by
  intro f1 f2 h1 h12
  induction f2, h12 using Nat.le_induction with
  | base => rfl
  | succ f2 h12 ih =>
      rw [ih]
      exact slLoop_stable cfg g q ef layer f2 C W vis (lt_of_lt_of_le h1 h12)

/-- Adequacy of the fuel chosen by `search_layer`: any fuel at least
`2·nbrTotal g + 4` computes the same result, i.e. the embedded loop has
reached the fixpoint of the source's unbounded `while` loop. -/
theorem search_layer_fuel_sufficient (cfg : HCfg) (g : HGraph) (q : Vec)
    (e0 ef layer : ℕ) (f : ℕ) (hf : 2 * nbrTotal g + 4 ≤ f) :
    slLoop cfg g q ef layer f [⟨e0, dQ cfg g q e0⟩] [⟨e0, dQ cfg g q e0⟩] [e0] =
      search_layer cfg g q e0 ef layer := by
  unfold search_layer
  have hmsr : slMeasure g [⟨e0, dQ cfg g q e0⟩] [e0] < 2 * nbrTotal g + 4 := by
    unfold slMeasure
    have h1 : (allNbrIds g \ [e0].toFinset).card ≤ nbrTotal g :=
      le_trans (Finset.card_le_card (Finset.sdiff_subset)) (card_allNbrIds_le g)
    simp only [List.length_cons, List.length_nil]
    omega
  exact (slLoop_ge_stable cfg g q ef layer _ _ _ (2 * nbrTotal g + 4) f hmsr hf).symm

end HNSWIndex
